import Mathlib

/-!
# Verification of the chapter-structure crawler core (`crawler.py`)

This development gives a shallow embedding, in Lean 4, of the pure core of
`crawler.py` from the `saint-cai-crawler` repository:

* the text utilities (`_normalize_text`, `_split_choice`, `_append_text_part`),
* the math/markup normalizer (`_convert_markup_to_latex`, `_merge_adjacent`,
  `_format_math_buffer`, `_cleanup_math_tokens`),
* the structural parser / question accumulator (`build_chapter_structure`),
* the finalizer (`finalize_qa_items`, the answer-line computation), and
* the image-usage aggregator (`enrich_images`).

Strings are handled as `List Char`; Python `re.sub` passes are embedded as
explicit scanners with the leftmost, non-overlapping match semantics of the
corresponding pattern.  Scanners that need unbounded lookahead take a `fuel`
argument; wrappers supply `length + 1`, which every sufficiency lemma below
shows is enough.  The HTML layer (BeautifulSoup) is out of scope: a parsed
block node is modelled by a `Node` record carrying the values of the
BeautifulSoup queries the Python code performs on it (tag name, class list,
serialized inline markup, embedded image spans, ...).
-/

namespace Crawler

/-! ## Basic character classes and Python-style string helpers -/

/-- Whitespace as matched by Python's `\s` / stripped by `str.strip()`
(ASCII part, which is all that survives `_normalize_text`). -/
def isPyWs (c : Char) : Bool :=
  c = ' ' || c = '\t' || c = '\n' || c = '\r' || c = '\x0b' || c = '\x0c'

/-- `str.lstrip()` over `List Char`. -/
def lstripWs (s : List Char) : List Char := s.dropWhile isPyWs

/-- `str.strip()` over `List Char`. -/
def pyStrip (s : List Char) : List Char :=
  ((s.dropWhile isPyWs).reverse.dropWhile isPyWs).reverse

/-- One step of `re.sub(r"\s+", " ", ...)`: collapse each whitespace run to a
single space.  `prevWs` records whether the previous character was part of a
run already emitted. -/
def collapseWsAux : Bool → List Char → List Char
  | _, [] => []
  | prevWs, c :: cs =>
    if isPyWs c then
      if prevWs then collapseWsAux true cs else ' ' :: collapseWsAux true cs
    else c :: collapseWsAux false cs

/-- `re.sub(r"\s+", " ", s)`. -/
def collapseWs (s : List Char) : List Char := collapseWsAux false s

/-- Python `str.replace(old, new)` (all occurrences, left to right,
non-overlapping).  `old` must be nonempty at call sites, as in the source. -/
def replaceAll (old new : List Char) : Nat → List Char → List Char
  | _, [] => []
  | 0, s => s
  | fuel + 1, c :: cs =>
    if (c :: cs).take old.length = old ∧ old ≠ [] then
      new ++ replaceAll old new fuel ((c :: cs).drop old.length)
    else
      c :: replaceAll old new fuel cs

/-- `_normalize_text` from `crawler.py`: replace `\xa0` by a space, collapse
whitespace runs, strip. -/
def normalizeText (s : List Char) : List Char :=
  pyStrip (collapseWs (replaceAll ['\xa0'] [' '] (s.length + 1) s))

/-- The ASCII choice labels `"ABCDEFGHIJKLMNOPQRSTUVWXYZ"`. -/
def isAsciiLabel (c : Char) : Bool := 'A' ≤ c && c ≤ 'Z'

/-- The full-width choice labels `"ＡＢＣＤＥＦＧＨＩＪＫＬＭＮＯＰＱＲＳＴＵＶＷＸＹＺ"`. -/
def isFullLabel (c : Char) : Bool := 'Ａ' ≤ c && c ≤ 'Ｚ'

/-- A recognized choice-label character. -/
def isLabelChar (c : Char) : Bool := isAsciiLabel c || isFullLabel c

/-- The delimiter characters of `_split_choice`: the Python string
`"．.、)）：: "`. -/
def isChoiceDelim (c : Char) : Bool :=
  c = '．' || c = '.' || c = '、' || c = ')' || c = '）' || c = '：' ||
  c = ':' || c = ' '

/-- `_split_choice` from `crawler.py`.  Returns `(label?, remainder)`;
`label? = some l` means a choice with label `l` is opened. -/
def splitChoice (text : List Char) : Option Char × List Char :=
  if text = [] then (none, [])
  else
    let stripped := pyStrip text
    match stripped with
    | [] => (none, [])
    | label :: rest =>
      if isLabelChar label then
        match rest with
        | [] => (some label, [])
        | d :: tail =>
          if isChoiceDelim d then
            (some label, tail.dropWhile isChoiceDelim)
          else (none, text)
      else (none, text)

/-! ## Finalizer: the answer-line computation (`finalize_qa_items`) -/

/-- The scan loop of `finalize_qa_items` over the stripped raw answer lines.
State: output so far (`acc`), the `seen_text` set (`seen`, kept as a list) and
the not-yet-consumed preferred echo (`pref`).  Mirrors lines 1104–1116 of
`crawler.py`. -/
def answerScan (labels : List (List Char)) :
    List (List Char) → List (List Char) → List (List Char) →
    Option (List Char) → List (List Char) × List (List Char) × Option (List Char)
  | [], acc, seen, pref => (acc, seen, pref)
  | line :: rest, acc, seen, pref =>
    if labels ≠ [] ∧ line ∈ labels then
      if pref = some line then
        if line ∈ seen then answerScan labels rest acc seen none
        else answerScan labels rest (acc ++ [line]) (line :: seen) none
      else answerScan labels rest acc seen pref
    else
      if line ∈ seen then answerScan labels rest acc seen pref
      else answerScan labels rest (acc ++ [line]) (line :: seen) pref

/-- Preprocessing of `finalize_qa_items`: strip each raw answer capture and
drop the ones that become empty. -/
def rawAnswers (rawLines : List (List Char)) : List (List Char) :=
  (rawLines.map pyStrip).filter (· ≠ [])

/-- The full `answer_lines` computation of `finalize_qa_items`: preprocess,
find the preferred echo (first raw line equal to a choice label), run the
scan, and append the preferred echo at the end if it was never consumed
(lines 1090–1118 of `crawler.py`). -/
def finalizeAnswerLines (rawLines : List (List Char)) (labels : List (List Char)) :
    List (List Char) :=
  match answerScan labels (rawAnswers rawLines) [] []
      ((rawAnswers rawLines).find? (· ∈ labels)) with
  | (acc, seen, some p) => if p ≠ [] ∧ p ∉ seen then acc ++ [p] else acc
  | (acc, _, none) => acc

/-- String-level wrapper for `finalizeAnswerLines`. -/
def finalizeAnswerLinesS (rawLines : List String) (labels : List String) :
    List String :=
  (finalizeAnswerLines (rawLines.map String.data) (labels.map String.data)).map
    (fun l => String.mk l)

/-- Specification-level scan for the amended answer-line rule: walking the
stripped raw lines in order, an echo (`line ∈ labels`, with a nonempty label
set) that is not the preferred one is skipped; the preferred echo and every
non-echo line are kept unless already emitted (exact-duplicate dropping). -/
def amendedScan (labels : List (List Char)) (pref : Option (List Char)) :
    List (List Char) → List (List Char) → List (List Char)
  | [], _ => []
  | line :: rest, seen =>
    if (labels ≠ [] ∧ line ∈ labels) ∧ pref ≠ some line then
      amendedScan labels pref rest seen
    else if line ∈ seen then amendedScan labels pref rest seen
    else line :: amendedScan labels pref rest (line :: seen)

/-- The amended answer-line rule: same preprocessing as the code, preferred
echo = first stripped raw line equal to a choice label, then `amendedScan`
(the preferred echo is emitted at its *first occurrence*, not deferred to the
end). -/
def amendedAnswerLines (rawLines : List (List Char)) (labels : List (List Char)) :
    List (List Char) :=
  amendedScan labels ((rawAnswers rawLines).find? (· ∈ labels)) (rawAnswers rawLines) []

/-- String-level wrapper for `amendedAnswerLines`. -/
def amendedAnswerLinesS (rawLines : List String) (labels : List String) :
    List String :=
  (amendedAnswerLines (rawLines.map String.data) (labels.map String.data)).map
    (fun l => String.mk l)

/-! ## First-occurrence deduplication (the chapter-wide image ledger)

Every site in `build_chapter_structure` that grows `seen_images` does so with
`if src not in seen_images: seen_images.append(src)`; `addSeen` is that
operation and `dedupFirst` its closed form over a stream of URLs. -/

/-- `if src not in seen: seen.append(src)`. -/
def addSeen (seen : List String) (src : String) : List String :=
  if src ∈ seen then seen else seen ++ [src]

/-- Keep the first occurrence of every element, in order. -/
def dedupFirst : List String → List String
  | [] => []
  | x :: xs => x :: dedupFirst (xs.filter (· ≠ x))
termination_by l => l.length
decreasing_by simpa using Nat.lt_succ_of_le (List.length_filter_le _ _)

/-! ## The structural parser (`build_chapter_structure`)

The BeautifulSoup layer is abstracted away: a top-level block node is a
`Node` record carrying the results of the queries `build_chapter_structure`
performs on it (`node.name`, `node.get("class", [])`, the serialized inline
markup fed to `_node_text`, the `span.answer` / `span.ResolveTag` /
`QuestionNum1/2` sub-spans, the `span.img` descendants, and for a top-level
`span` its own `data-src` / `data-sr` / `data-width` / `data-height`
attributes).  Everything after those queries is translated statement by
statement from lines 595–847 of `crawler.py`.

The Python code keeps the open question as a reference aliasing the last
item of the current section's `items` list; here the open question is held
in `BState.curQa` and written back (`flushQa`) exactly when the code stops
mutating it, which preserves item order because, while a question is open,
the code never appends another item to the section (the closing branches
`TiXing` / `ArtH2` / `QuestionTitle` append only after/at the moment the
question closes). -/

/-- String-level `_normalize_text`. -/
def normalizeTextS (s : String) : String := String.mk (normalizeText s.data)

/-- String-level `str.strip()`. -/
def pyStripS (s : String) : String := String.mk (pyStrip s.data)

/-- An inline image marker: `data-src` or `data-sr` (empty string when both
are missing), plus optional `data-width` / `data-height`. -/
structure ImgData where
  src : String
  width : Option String
  height : Option String
  deriving Repr, DecidableEq

/-- One element of a mixed text/image sequence (`question_rich`, a choice's
`content`, `analysis_lines`, `question_extra`). -/
inductive Part
  | txt (s : String)
  | img (d : ImgData)
  deriving Repr, DecidableEq

/-- One choice dict as built by `build_chapter_structure`. -/
structure BChoice where
  label : Char
  content : List Part
  images : List ImgData
  deriving Repr, DecidableEq

/-- One QA item dict as built by `build_chapter_structure` (the `_active_choice`
reference is modelled as an index into `choices`). -/
structure BQa where
  number : Option String
  question : String
  questionRich : List Part
  answerLines : List String
  analysisLines : List Part
  questionExtra : List Part
  choices : List BChoice
  activeChoice : Option Nat
  deriving Repr, DecidableEq

/-- A section item. -/
inductive SItem
  | heading (level : Nat) (text : String)
  | text (s : String)
  | image (d : ImgData)
  | qa (q : BQa)
  deriving Repr, DecidableEq

/-- A section dict. -/
structure BSection where
  title : Option String
  items : List SItem
  deriving Repr, DecidableEq

/-- A child of a `QuestionTitle` node, after number-span extraction:
a `NavigableString`, a `span` with class `img`, or another tag (carrying the
value of `_stringify_with_markup` on it). -/
inductive Child
  | navString (s : String)
  | imgSpan (d : ImgData)
  | tagChild (markup : String)
  deriving Repr, DecidableEq

/-- An abstract top-level block node (see the section comment). -/
structure Node where
  isTag : Bool
  name : String
  classes : List String
  rawMarkup : String
  rawAfterNum : String
  answerSpan : Option String
  resolveRaw : Option String
  numSpan : Option String
  children : List Child
  imgSpans : List ImgData
  spanImg : ImgData
  deriving Repr, DecidableEq

/-- The parser state during the node walk. -/
structure BState where
  title : String
  closed : List BSection
  cur : Option BSection
  curQa : Option BQa
  seen : List String
  deriving Repr, DecidableEq

def initState : BState :=
  { title := "", closed := [], cur := none, curQa := none, seen := [] }

/-- Write the open question back as the last item of the current section
(the Python code has it there all along, by aliasing). -/
def flushQa (st : BState) : BState :=
  match st.curQa with
  | none => st
  | some q =>
    match st.cur with
    | some sec =>
      { st with cur := some { sec with items := sec.items ++ [SItem.qa q] },
                curQa := none }
    | none => { st with cur := some ⟨none, [SItem.qa q]⟩, curQa := none }

/-- `get_container()`: create the lazy untitled section if none is open. -/
def ensureCur (st : BState) : BState :=
  match st.cur with
  | some _ => st
  | none => { st with cur := some ⟨none, []⟩ }

/-- `container.append(item)`. -/
def appendItem (st : BState) (it : SItem) : BState :=
  match (ensureCur st).cur with
  | some sec => { ensureCur st with cur := some { sec with items := sec.items ++ [it] } }
  | none => ensureCur st

/-- Update the list element at index `i`. -/
def updateNth : List α → Nat → (α → α) → List α
  | [], _, _ => []
  | x :: xs, 0, f => f x :: xs
  | x :: xs, n + 1, f => x :: updateNth xs n f

/-- `_append_text_part`. -/
def appendTextPart (parts : List Part) (s : String) : List Part :=
  if s = "" then parts
  else
    match parts.getLast? with
    | some (Part.txt t) => parts.dropLast ++ [Part.txt (t ++ s)]
    | _ => parts ++ [Part.txt s]

/-- Routing of a free-text node into an open question (lines 748–769). -/
def routeFreeText (q : BQa) (text : String) : BQa :=
  if q.answerLines = [] then
    match splitChoice text.data with
    | (some label, remainder) =>
      let ch : BChoice :=
        { label := label,
          content := if remainder ≠ [] then [Part.txt (String.mk remainder)] else [],
          images := [] }
      { q with choices := q.choices ++ [ch], activeChoice := some q.choices.length }
    | (none, _) =>
      match q.activeChoice with
      | some i =>
        let f := fun ch => { ch with content := ch.content ++ [Part.txt text] }
        { q with choices := updateNth q.choices i f }
      | none => { q with questionExtra := q.questionExtra ++ [Part.txt text] }
  else { q with analysisLines := q.analysisLines ++ [Part.txt text] }

/-- Routing of an inline image span into an open question (lines 787–797 and
818–832, which are identical). -/
def routeQaImage (q : BQa) (d : ImgData) : BQa :=
  if q.answerLines = [] then
    match q.activeChoice with
    | some i =>
      let f := fun ch =>
        { ch with images := ch.images ++ [d], content := ch.content ++ [Part.img d] }
      { q with choices := updateNth q.choices i f }
    | none => { q with questionExtra := q.questionExtra ++ [Part.img d] }
  else { q with analysisLines := q.analysisLines ++ [Part.img d] }

/-- Process the `span.img` descendants of a `p` node (lines 777–811). -/
def processImgSpans (st : BState) (imgs : List ImgData) : BState :=
  imgs.foldl
    (fun st d =>
      if d.src = "" then st
      else
        let st' :=
          match st.curQa with
          | some q => { st with curQa := some (routeQaImage q d) }
          | none => appendItem st (SItem.image d)
        { st' with seen := addSeen st'.seen d.src })
    st

/-- Build `question_rich` and the inline image list of a `QuestionTitle` node
from its children (lines 672–692). -/
def questionParts (children : List Child) : List Part × List ImgData :=
  children.foldl
    (fun acc c =>
      match c with
      | Child.navString s => (appendTextPart acc.1 (normalizeTextS s), acc.2)
      | Child.imgSpan d =>
        if d.src = "" then acc else (acc.1 ++ [Part.img d], acc.2 ++ [d])
      | Child.tagChild m => (appendTextPart acc.1 (normalizeTextS m), acc.2))
    ([], [])

/-- The placeholder strings (`[图N]` for the N-th image) of lines 694–701. -/
def placeholderList (parts : List Part) : List String :=
  (parts.foldl
    (fun (acc : List String × Nat) p =>
      match p with
      | Part.txt s => (acc.1 ++ [s], acc.2)
      | Part.img _ => (acc.1 ++ ["[图" ++ toString (acc.2 + 1) ++ "]"], acc.2 + 1))
    ([], 0)).1

/-- `" ".join(part for part in placeholder_parts if part)`. -/
def joinSpace (l : List String) : String :=
  match l.filter (· ≠ "") with
  | [] => ""
  | x :: xs => xs.foldl (fun acc s => acc ++ " " ++ s) x

/-- The QA item built by the `QuestionTitle` branch (lines 661–726), together
with its inline images. -/
def buildQuestionItem (node : Node) : BQa × List ImgData :=
  let (parts, inlineImgs) := questionParts node.children
  let qtext := pyStripS (joinSpace (placeholderList parts))
  let qtext := if qtext = "" then normalizeTextS node.rawAfterNum else qtext
  ({ number := node.numSpan, question := qtext, questionRich := parts,
     answerLines := [], analysisLines := [], questionExtra := [], choices := [],
     activeChoice := none }, inlineImgs)

/-- Modify the open question (which the branch guarantees to exist). -/
def setQa (st : BState) (f : BQa → BQa) : BState :=
  { st with curQa := st.curQa.map f }

/-- The branches from `TiXing` on (lines 656–811), reached either directly or
by falling through a `TagBoxP` node that has neither an answer nor a resolve
span. -/
def stepRest (st : BState) (node : Node) (classes : List String) (text : String) :
    BState :=
  if "TiXing" ∈ classes then
    appendItem (flushQa st) (SItem.heading 3 text)
  else if "QuestionTitle" ∈ classes then
    let (item, inlineImgs) := buildQuestionItem node
    let st := flushQa st
    { st with curQa := some item,
              seen := inlineImgs.foldl (fun s d => addSeen s d.src) st.seen }
  else if text.startsWith "【答案】" then
    match st.curQa with
    | some q =>
      { st with curQa := some { q with answerLines := q.answerLines ++ [pyStripS (text.drop 4)] } }
    | none => appendItem st (SItem.text text)
  else if text.startsWith "【解析】" then
    match st.curQa with
    | some q =>
      { st with curQa := some { q with analysisLines := q.analysisLines ++ [Part.txt (pyStripS (text.drop 4))] } }
    | none => appendItem st (SItem.text text)
  else
    let st :=
      if text ≠ "" then
        match st.curQa with
        | some q => { st with curQa := some (routeFreeText q text) }
        | none => appendItem st (SItem.text text)
      else st
    processImgSpans st node.imgSpans

/-- One iteration of the `for node in soup.children` loop (lines 617–845). -/
def stepNode (st : BState) (node : Node) : BState :=
  if !node.isTag then st
  else
    let classes := node.classes
    let text := normalizeTextS node.rawMarkup
    if node.name = "p" then
      if "ArtH1" ∈ classes then { flushQa st with title := text }
      else if "ArtH2" ∈ classes then
        let st := flushQa st
        { st with
            closed := st.closed ++ (match st.cur with | some s => [s] | none => []),
            cur := some ⟨some text, []⟩ }
      else if "PSplit" ∈ classes ∧ text = "" then st
      else
        let st := ensureCur st
        if "TagBoxP" ∈ classes ∧ st.curQa ≠ none then
          match node.answerSpan with
          | some a => setQa st (fun q => { q with answerLines := q.answerLines ++ [a] })
          | none =>
            match node.resolveRaw with
            | some r =>
              let t := normalizeTextS r
              if t ≠ "" then
                setQa st (fun q => { q with analysisLines := q.analysisLines ++ [Part.txt t] })
              else st
            | none => stepRest st node classes text
        else stepRest st node classes text
    else if node.name = "span" ∧ "img" ∈ classes then
      if node.spanImg.src = "" then st
      else
        let st' :=
          match st.curQa with
          | some q => { st with curQa := some (routeQaImage q node.spanImg) }
          | none => appendItem st (SItem.image node.spanImg)
        { st' with seen := addSeen st'.seen node.spanImg.src }
    else st

/-- Run the walk over all top-level nodes. -/
def runNodes (nodes : List Node) : BState := nodes.foldl stepNode initState

/-- The chapter record assembled by `build_chapter_structure` (plus
`chapter["images"] = image_urls` done by `process_chapter`). -/
structure Chapter where
  title : String
  sections : List BSection
  images : List String
  deriving Repr, DecidableEq

/-- Close the final state into the returned chapter. -/
def closeState (st : BState) : Chapter :=
  let st := flushQa st
  { title := st.title,
    sections := st.closed ++ (match st.cur with | some s => [s] | none => []),
    images := st.seen }

/-- `build_chapter_structure` end to end. -/
def buildChapter (nodes : List Node) : Chapter := closeState (runNodes nodes)

/-- A plain `p` node with the given classes and markup, no sub-spans. -/
def mkPNode (classes : List String) (markup : String) : Node :=
  { isTag := true, name := "p", classes := classes, rawMarkup := markup,
    rawAfterNum := markup, answerSpan := none, resolveRaw := none,
    numSpan := none, children := [], imgSpans := [], spanImg := ⟨"", none, none⟩ }

/-! ### Choice opening (C6) -/

/-- A fresh QA item with no recorded lines, as opened by a question-start
node with no number and no inline children. -/
def emptyQa : BQa :=
  { number := none, question := "", questionRich := [], answerLines := [],
    analysisLines := [], questionExtra := [], choices := [], activeChoice := none }

/-- The delimiters exactly as the claim lists them: `". "` (period plus
space), `"．"`, `"、"`, `")"`, `"）"`, `":"`, `"："`, or a bare space. -/
def claimDelims : List (List Char) :=
  [". ".data, "．".data, "、".data, ")".data, "）".data, ":".data, "：".data,
   " ".data]

/-- The claim's opening condition, literally: the text starts with a label
character that either is the entire text or is followed immediately by one of
`claimDelims`. -/
def claimOpensChoice (text : String) : Bool :=
  match text.data with
  | [] => false
  | c :: rest =>
    isLabelChar c &&
      (rest.isEmpty || claimDelims.any (fun d => rest.take d.length = d))

/-- The choice actually opened by the code for a given routed text, described
in specification style: strip the text; it must start with a label character
that is alone or followed by one of the *single-character* delimiters
`．`, `.`, `、`, `)`, `）`, `：`, `:`, space; the first content part is the
rest with all further leading delimiter characters stripped, omitted when
empty. -/
def amendedChoiceOf (text : String) : Option BChoice :=
  match pyStrip text.data with
  | [] => none
  | c :: rest =>
    if isLabelChar c then
      match rest with
      | [] => some ⟨c, [], []⟩
      | d :: tail =>
        if isChoiceDelim d then
          let r := tail.dropWhile isChoiceDelim
          some ⟨c, if r ≠ [] then [Part.txt (String.mk r)] else [], []⟩
        else none
    else none

/-- A concrete post-answer state: an open question that already has the
answer line `"A"` recorded. -/
def postAnswerState : BState :=
  { initState with cur := some ⟨none, []⟩,
                   curQa := some { emptyQa with answerLines := ["A"] } }

/-- The image URLs a node's `span.img` descendants contribute, in order. -/
def imgSpanUrls (imgs : List ImgData) : List String :=
  (imgs.filter (fun d => d.src ≠ "")).map (fun d => d.src)

/-- The URLs the `stepRest` region attempts to add to the ledger. -/
def stepRestUrls (n : Node) : List String :=
  if "TiXing" ∈ n.classes then []
  else if "QuestionTitle" ∈ n.classes then ((buildQuestionItem n).2).map (fun d => d.src)
  else if (normalizeTextS n.rawMarkup).startsWith "【答案】" then []
  else if (normalizeTextS n.rawMarkup).startsWith "【解析】" then []
  else imgSpanUrls n.imgSpans

/-- The URLs one loop iteration attempts to add to the ledger, in document
order. -/
def stepUrls (st : BState) (n : Node) : List String :=
  if !n.isTag then []
  else if n.name = "p" then
    if "ArtH1" ∈ n.classes then []
    else if "ArtH2" ∈ n.classes then []
    else if "PSplit" ∈ n.classes ∧ normalizeTextS n.rawMarkup = "" then []
    else if "TagBoxP" ∈ n.classes ∧ st.curQa ≠ none then
      match n.answerSpan with
      | some _ => []
      | none =>
        match n.resolveRaw with
        | some _ => []
        | none => stepRestUrls n
    else stepRestUrls n
  else if n.name = "span" ∧ "img" ∈ n.classes then
    if n.spanImg.src = "" then [] else [n.spanImg.src]
  else []

/-- The stream of image URLs the walk attempts to add to the ledger, in
document order. -/
def docUrls : BState → List Node → List String
  | _, [] => []
  | st, n :: ns => stepUrls st n ++ docUrls (stepNode st n) ns

/-! ## Image usage aggregation (`enrich_images`, lines 970–1052)

At the time `enrich_images` runs, `item["images"]` still holds the empty list
it was initialized with in `build_chapter_structure` (nothing appends to it
before `enrich_images` overwrites it), so the first `record` loop over
`item.get("images", [])` contributes nothing and the per-item occurrence
stream consists of the `question_rich`, `question_extra`, `analysis_lines`
and per-choice content images, in traversal order (choice images are visited
twice: once over `content`, once over the recomputed `choice["images"]`,
which is the same image sublist). -/

/-- One entry of the per-item `images` usage list. -/
structure Usage where
  url : String
  file : Option String
  width : Option String
  height : Option String
  contexts : List String
  deriving Repr, DecidableEq

/-- Python truthiness of an optional string attribute. -/
def optFalsy : Option String → Bool
  | none => true
  | some s => s = ""

/-- `url_to_file.get(url)`. -/
def lookupFile (urlToFile : List (String × String)) (url : String) : Option String :=
  (urlToFile.find? (fun p => p.1 = url)).map Prod.snd

/-- Replace the first entry with the given URL. -/
def updateUsage (url : String) (f : Usage → Usage) : List Usage → List Usage
  | [] => []
  | e :: es => if e.url = url then f e :: es else e :: updateUsage url f es

/-- The `record(mapped, context)` closure (lines 972–996): skip an empty URL;
create the entry on first sight (fields from the mapped dict, empty context
list); otherwise fill in missing `file` / `width` / `height`; finally append
the context tag if not already present. -/
def recordUsage (urlToFile : List (String × String)) (us : List Usage)
    (d : ImgData) (context : String) : List Usage :=
  if d.src = "" then us
  else
    match us.find? (fun e => e.url = d.src) with
    | none =>
      let e : Usage := { url := d.src, file := lookupFile urlToFile d.src,
                         width := d.width, height := d.height, contexts := [] }
      let e := if context ∈ e.contexts then e
               else { e with contexts := e.contexts ++ [context] }
      us ++ [e]
    | some _ =>
      updateUsage d.src
        (fun e =>
          let e := if optFalsy e.file then
                     { e with file := lookupFile urlToFile d.src } else e
          let e := if optFalsy e.width && !(optFalsy d.width) then
                     { e with width := d.width } else e
          let e := if optFalsy e.height && !(optFalsy d.height) then
                     { e with height := d.height } else e
          if context ∈ e.contexts then e
          else { e with contexts := e.contexts ++ [context] })
        us

/-- The image references inside a mixed text/image sequence. -/
def imgParts (parts : List Part) : List ImgData :=
  parts.filterMap (fun p => match p with | Part.img d => some d | _ => none)

/-- The `(image, context)` record calls `enrich_images` performs for one QA
item, in order (`question_rich` and `question_extra` as `"question"`,
`analysis_lines` as `"analysis"`, each choice's content twice as
`"choice:<label>"`). -/
def itemOccurrences (q : BQa) : List (ImgData × String) :=
  (imgParts q.questionRich).map (fun d => (d, "question")) ++
  (imgParts q.questionExtra).map (fun d => (d, "question")) ++
  (imgParts q.analysisLines).map (fun d => (d, "analysis")) ++
  (q.choices.map (fun ch =>
    (imgParts ch.content).map (fun d => (d, "choice:" ++ ch.label.toString)) ++
    (imgParts ch.content).map (fun d => (d, "choice:" ++ ch.label.toString)))).flatten

/-- The per-item usage list computed by `enrich_images`
(`item["images"] = list(usage.values())`). -/
def enrichUsage (urlToFile : List (String × String)) (q : BQa) : List Usage :=
  (itemOccurrences q).foldl
    (fun us p => recordUsage urlToFile us p.1 p.2) []

/-- The context list recorded for a URL. -/
def ctxOf (us : List Usage) (u : String) : List String :=
  ((us.find? (fun e => e.url = u)).map Usage.contexts).getD []

/-- The contexts in which a URL occurs in a QA item, as the claim describes
them: `"question"` for `question_rich` / `question_extra` images,
`"analysis"` for `analysis_lines` images, `"choice:<label>"` for a choice's
content images. -/
def occursWith (q : BQa) (u c : String) : Prop :=
  (c = "question" ∧
    ((∃ d ∈ imgParts q.questionRich, d.src = u) ∨
     (∃ d ∈ imgParts q.questionExtra, d.src = u))) ∨
  (c = "analysis" ∧ ∃ d ∈ imgParts q.analysisLines, d.src = u) ∨
  (∃ ch ∈ q.choices, c = "choice:" ++ ch.label.toString ∧
    ∃ d ∈ imgParts ch.content, d.src = u)

/-- A concrete QA item whose single image occurs both in the question body
and in the analysis. -/
def sampleQa : BQa :=
  { emptyQa with
      questionRich := [Part.img ⟨"http://x/im.png", none, none⟩],
      analysisLines := [Part.img ⟨"http://x/im.png", none, none⟩] }

/-! ## The math/markup normalizer

`_convert_markup_to_latex`, `_merge_adjacent`, `_format_math_buffer` and
`_cleanup_math_tokens` are chains of `re.sub` passes; each pass is embedded
as a scanner with the leftmost, non-overlapping semantics of its pattern
(failure at a position emits one character and retries at the next).
Scanners that need unbounded lookahead take a `fuel` argument consuming at
least one character per step, so `length + 1` fuel always suffices.  The
strings these functions receive have already gone through `_normalize_text`
or are built from such strings, so Python's unicode `\s` is modelled by the
ASCII whitespace class `isPyWs` (`\xa0`, the one non-ASCII whitespace the
site emits, is replaced before any `\s` pattern runs). -/

/-- `re.sub(r"<\s*br\s*/?>", "\n", s, flags=IGNORECASE)`. -/
def subBr : Nat → List Char → List Char
  | 0, s => s
  | _, [] => []
  | fuel + 1, c :: cs =>
    if c = '<' then
      let r1 := cs.dropWhile isPyWs
      match r1 with
      | b :: r2 =>
        if b = 'b' ∨ b = 'B' then
          match r2 with
          | r :: r3 =>
            if r = 'r' ∨ r = 'R' then
              let r4 := r3.dropWhile isPyWs
              match r4 with
              | '/' :: '>' :: rest => '\n' :: subBr fuel rest
              | '>' :: rest => '\n' :: subBr fuel rest
              | _ => c :: subBr fuel cs
            else c :: subBr fuel cs
          | [] => c :: subBr fuel cs
        else c :: subBr fuel cs
      | [] => c :: subBr fuel cs
    else c :: subBr fuel cs

/-- Case-insensitive comparison against a lowercase ASCII word. -/
def matchWordCI : List Char → List Char → Option (List Char)
  | [], rest => some rest
  | w :: ws, c :: rest =>
    if c = w ∨ c = w.toUpper then matchWordCI ws rest else none
  | _ :: _, [] => none

/-- `re.sub(r"<\s*TAG\s*>", repl, s, flags=IGNORECASE)` for a literal tag
word (used with `sub` / `sup`). -/
def subOpenTag (tag : List Char) (repl : List Char) : Nat → List Char → List Char
  | 0, s => s
  | _, [] => []
  | fuel + 1, c :: cs =>
    if c = '<' then
      match matchWordCI tag (cs.dropWhile isPyWs) with
      | some r1 =>
        match r1.dropWhile isPyWs with
        | '>' :: rest => repl ++ subOpenTag tag repl fuel rest
        | _ => c :: subOpenTag tag repl fuel cs
      | none => c :: subOpenTag tag repl fuel cs
    else c :: subOpenTag tag repl fuel cs

/-- `re.sub(r"<\s*/\s*TAG\s*>", repl, s, flags=IGNORECASE)`. -/
def subCloseTag (tag : List Char) (repl : List Char) : Nat → List Char → List Char
  | 0, s => s
  | _, [] => []
  | fuel + 1, c :: cs =>
    if c = '<' then
      match cs.dropWhile isPyWs with
      | '/' :: r1 =>
        match matchWordCI tag (r1.dropWhile isPyWs) with
        | some r2 =>
          match r2.dropWhile isPyWs with
          | '>' :: rest => repl ++ subCloseTag tag repl fuel rest
          | _ => c :: subCloseTag tag repl fuel cs
        | none => c :: subCloseTag tag repl fuel cs
      | _ => c :: subCloseTag tag repl fuel cs
    else c :: subCloseTag tag repl fuel cs

/-- `re.sub(r"<[^>]+>", "", s)`: strip every remaining tag. -/
def stripTags : Nat → List Char → List Char
  | 0, s => s
  | _, [] => []
  | fuel + 1, c :: cs =>
    if c = '<' then
      let g := cs.takeWhile (fun x => x ≠ '>')
      if g ≠ [] then
        match cs.drop g.length with
        | '>' :: rest => stripTags fuel rest
        | _ => c :: stripTags fuel cs
      else c :: stripTags fuel cs
    else c :: stripTags fuel cs

/-- `re.sub(r"\{\s+", "{", s)`. -/
def subBraceWs : Nat → List Char → List Char
  | 0, s => s
  | _, [] => []
  | fuel + 1, c :: cs =>
    if c = '{' then
      let w := cs.takeWhile isPyWs
      if w ≠ [] then '{' :: subBraceWs fuel (cs.drop w.length)
      else '{' :: subBraceWs fuel cs
    else c :: subBraceWs fuel cs

/-- `re.sub(r"\s+\}", "}", s)`. -/
def subWsBrace : Nat → List Char → List Char
  | 0, s => s
  | _, [] => []
  | fuel + 1, c :: cs =>
    if isPyWs c then
      let w := (c :: cs).takeWhile isPyWs
      match (c :: cs).drop w.length with
      | '}' :: rest => '}' :: subWsBrace fuel rest
      | _ => w ++ subWsBrace fuel ((c :: cs).drop w.length)
    else c :: subWsBrace fuel cs

/-- `[^}]+\}`: a nonempty brace-free group followed by `}`. -/
def takeToBrace (s : List Char) : Option (List Char × List Char) :=
  let g := s.takeWhile (fun c => c ≠ '}')
  if g = [] then none
  else
    match s.drop g.length with
    | '}' :: rest => some (g, rest)
    | _ => none

/-- A match of `_merge_adjacent`'s pattern `M\{([^}]+)\}M\{([^}]+)\}` at the
head of the input: the two groups and the rest. -/
def tryAdjMatch (m : Char) : List Char → Option (List Char × List Char × List Char)
  | c0 :: c1 :: rest =>
    if c0 = m ∧ c1 = '{' then
      match takeToBrace rest with
      | some (g1, r1) =>
        match r1 with
        | d0 :: d1 :: r2 =>
          if d0 = m ∧ d1 = '{' then
            match takeToBrace r2 with
            | some (g2, r3) => some (g1, g2, r3)
            | none => none
          else none
        | _ => none
      | none => none
    else none
  | _ => none

/-- One `pattern.subn` pass of `_merge_adjacent`: replace every
(leftmost, non-overlapping) match `M{g1}M{g2}` by `M{g1g2}` and count the
matches. -/
def mergePass (m : Char) : Nat → List Char → List Char × Nat
  | 0, s => (s, 0)
  | _, [] => ([], 0)
  | fuel + 1, c :: cs =>
    match tryAdjMatch m (c :: cs) with
    | some (g1, g2, rest) =>
      let (t, n) := mergePass m fuel rest
      (m :: '{' :: (g1 ++ g2) ++ '}' :: t, n + 1)
    | none =>
      let (t, n) := mergePass m fuel cs
      (c :: t, n)

/-- The `while True: value, count = pattern.subn(...); if count == 0: break`
loop of `_merge_adjacent`. -/
def mergeLoop (m : Char) : Nat → List Char → List Char
  | 0, s => s
  | fuel + 1, s =>
    match mergePass m (s.length + 1) s with
    | (t, n) => if n = 0 then t else mergeLoop m fuel t

/-- `_merge_adjacent(marker, value)`; `length + 1` loop iterations always
reach the fixed point because each counted match shortens the string by 3
characters. -/
def mergeAdjacent (m : Char) (s : List Char) : List Char :=
  mergeLoop m (s.length + 1) s

/-- Detector for a match of the merge pattern anywhere in the string. -/
def hasAdjMatch (m : Char) : Nat → List Char → Bool
  | 0, _ => false
  | _, [] => false
  | fuel + 1, c :: cs =>
    match tryAdjMatch m (c :: cs) with
    | some _ => true
    | none => hasAdjMatch m fuel cs

/-- The string contains two immediately adjacent same-direction script
groups `M{a}M{b}`. -/
def containsAdjacent (m : Char) (s : List Char) : Bool :=
  hasAdjMatch m (s.length + 1) s

/-- `[A-Za-zΑ-Ωα-ω]`: an identifier head of `_MATH_LATEX_PATTERN`. -/
def isMathIdStart (c : Char) : Bool :=
  ('A' ≤ c && c ≤ 'Z') || ('a' ≤ c && c ≤ 'z') ||
  ('Α' ≤ c && c ≤ 'Ω') || ('α' ≤ c && c ≤ 'ω')

/-- `[A-Za-z0-9Α-Ωα-ω]`: an identifier continuation character. -/
def isMathIdCont (c : Char) : Bool := isMathIdStart c || ('0' ≤ c && c ≤ '9')

def isAsciiAlpha (c : Char) : Bool := ('A' ≤ c && c ≤ 'Z') || ('a' ≤ c && c ≤ 'z')

/-- `\{[^}]+\}`: one brace group including its braces. -/
def takeBraceGroup : List Char → Option (List Char × List Char)
  | '{' :: rest =>
    match takeToBrace rest with
    | some (g, rest') => some ('{' :: g ++ ['}'], rest')
    | none => none
  | _ => none

/-- `(?:\{[^}]+\})+` (greedy): one or more brace groups. -/
def takeBraceGroups : Nat → List Char → Option (List Char × List Char)
  | 0, _ => none
  | fuel + 1, s =>
    match takeBraceGroup s with
    | some (g, rest) =>
      match takeBraceGroups fuel rest with
      | some (gs, rest') => some (g ++ gs, rest')
      | none => some (g, rest)
    | none => none

/-- `(?:_{[^}]+}|\^{[^}]+})+` (greedy): one or more script groups. -/
def takeScriptGroups : Nat → List Char → Option (List Char × List Char)
  | 0, _ => none
  | fuel + 1, s =>
    match s with
    | c :: rest =>
      if c = '_' ∨ c = '^' then
        match takeBraceGroup rest with
        | some (g, rest') =>
          match takeScriptGroups fuel rest' with
          | some (gs, rest'') => some (c :: g ++ gs, rest'')
          | none => some (c :: g, rest')
        | none => none
      else none
    | [] => none

/-- A match of `_MATH_LATEX_PATTERN` at the head of the input: either a
backslash command with brace groups, or an identifier/parenthesized group
followed by script groups. -/
def tryMathMatch (s : List Char) : Option (List Char × List Char) :=
  match s with
  | '\\' :: rest =>
    let letters := rest.takeWhile isAsciiAlpha
    if letters = [] then none
    else
      match takeBraceGroups (s.length + 1) (rest.drop letters.length) with
      | some (gs, rest') => some ('\\' :: letters ++ gs, rest')
      | none => none
  | '(' :: rest =>
    let inner := rest.takeWhile (fun c => c ≠ ')')
    if inner = [] then none
    else
      match rest.drop inner.length with
      | ')' :: rest' =>
        match takeScriptGroups (s.length + 1) rest' with
        | some (gs, rest'') => some ('(' :: inner ++ ')' :: gs, rest'')
        | none => none
      | _ => none
  | c :: rest =>
    if isMathIdStart c then
      let idCont := rest.takeWhile isMathIdCont
      match takeScriptGroups (s.length + 1) (rest.drop idCont.length) with
      | some (gs, rest') => some (c :: idCont ++ gs, rest')
      | none => none
    else none
  | [] => none

/-- `_MATH_LATEX_PATTERN.sub(_wrap, s)`: wrap each match in `$…$`. -/
def mathWrap : Nat → List Char → List Char
  | 0, s => s
  | _, [] => []
  | fuel + 1, c :: cs =>
    match tryMathMatch (c :: cs) with
    | some (mtch, rest) => '$' :: mtch ++ '$' :: mathWrap fuel rest
    | none => c :: mathWrap fuel cs

/-- `re.sub(r"(\$[^$]+\$)(?=\$)", r"\1 ", s)`: a space after a math span
directly followed by `$`. -/
def dollarAdj : Nat → List Char → List Char
  | 0, s => s
  | _, [] => []
  | fuel + 1, c :: cs =>
    if c = '$' then
      let g := cs.takeWhile (fun x => x ≠ '$')
      match cs.drop g.length with
      | '$' :: rest' =>
        if g ≠ [] ∧ rest'.head? = some '$' then
          '$' :: g ++ '$' :: ' ' :: dollarAdj fuel rest'
        else c :: dollarAdj fuel cs
      | _ => c :: dollarAdj fuel cs
    else c :: dollarAdj fuel cs

/-- `re.sub(r"([0-9A-Za-zΑ-Ωα-ω])\$", r"\1 $", s)`. -/
def alnumDollar : List Char → List Char
  | [] => []
  | c :: '$' :: rest =>
    if isMathIdCont c then c :: ' ' :: '$' :: alnumDollar rest
    else c :: alnumDollar ('$' :: rest)
  | c :: rest => c :: alnumDollar rest

/-- `re.sub(r"([=+\-*/])\$", r"\1 $", s)`. -/
def opDollar : List Char → List Char
  | [] => []
  | c :: '$' :: rest =>
    if c = '=' ∨ c = '+' ∨ c = '-' ∨ c = '*' ∨ c = '/' then
      c :: ' ' :: '$' :: opDollar rest
    else c :: opDollar ('$' :: rest)
  | c :: rest => c :: opDollar rest

/-- The full-width replacement table `_FULLWIDTH_REPLACEMENTS`. -/
def fullwidthTable : List (List Char × List Char) :=
  [("（".data, "(".data), ("）".data, ")".data), ("，".data, ", ".data),
   ("。".data, ". ".data), ("．".data, ". ".data), ("；".data, "; ".data),
   ("：".data, ": ".data), ("＋".data, "+".data), ("－".data, "-".data),
   ("＝".data, "=".data), ("＜".data, "<".data), ("＞".data, ">".data)]

/-- `_convert_markup_to_latex` from `crawler.py` (lines 460–500). -/
def convertMarkup (s : List Char) : List Char :=
  let pre := s.takeWhile isPyWs
  let suf := (s.reverse.takeWhile isPyWs).reverse
  let core := pyStrip s
  if core = [] then pre ++ suf
  else
    let core := replaceAll ['\xa0'] [' '] (core.length + 1) core
    let core := replaceAll "&nbsp;".data " ".data (core.length + 1) core
    let core := subBr (core.length + 1) core
    let core := subOpenTag "sub".data "_\x7b".data (core.length + 1) core
    let core := subCloseTag "sub".data "\x7d".data (core.length + 1) core
    let core := subOpenTag "sup".data "^\x7b".data (core.length + 1) core
    let core := subCloseTag "sup".data "\x7d".data (core.length + 1) core
    let core := stripTags (core.length + 1) core
    let core := fullwidthTable.foldl
      (fun acc p => replaceAll p.1 p.2 (acc.length + 1) acc) core
    let core := subBraceWs (core.length + 1) core
    let core := subWsBrace (core.length + 1) core
    let core := mergeAdjacent '^' core
    let core := mergeAdjacent '_' core
    let core := pyStrip (collapseWs core)
    let core := mathWrap (core.length + 1) core
    let core := dollarAdj (core.length + 1) core
    let core := alnumDollar core
    let core := opDollar core
    pre ++ core ++ suf

/-! ### `_format_math_buffer` and `_cleanup_math_tokens` -/

/-- `re.sub(r"\s*X\s*", repl, s)` for a single operator character `X`:
whitespace adjacent to the operator is absorbed into the match.  `pend`
holds a read but not yet emitted whitespace run (reversed); `afterOp` is
true while inside the trailing `\s*` of a previous match. -/
def subSpaceAroundAux (op : Char) (repl : List Char) :
    List Char → Bool → List Char → List Char
  | pend, afterOp, [] => if afterOp then [] else pend.reverse
  | pend, afterOp, c :: cs =>
    if isPyWs c then
      if afterOp then subSpaceAroundAux op repl pend true cs
      else subSpaceAroundAux op repl (c :: pend) false cs
    else if c = op then repl ++ subSpaceAroundAux op repl [] true cs
    else
      (if afterOp then [] else pend.reverse) ++
        c :: subSpaceAroundAux op repl [] false cs

def subSpaceAround (op : Char) (repl : List Char) (s : List Char) : List Char :=
  subSpaceAroundAux op repl [] false s

/-- A match of `\^{\s*-\s*([^{}]+)\s*}` (resp. with `_`) at the head: the
replacement puts `-` right after the brace and removes every space (U+0020)
from the group. -/
def tryScriptNeg (m : Char) : List Char → Option (List Char × List Char)
  | c0 :: c1 :: rest =>
    if c0 = m ∧ c1 = '{' then
      let w0 := rest.takeWhile isPyWs
      match rest.drop w0.length with
      | '-' :: r1 =>
        let seg := r1.takeWhile (fun c => c ≠ '{' && c ≠ '}')
        match r1.drop seg.length with
        | '}' :: r2 =>
          let w := seg.takeWhile isPyWs
          let r := seg.drop w.length
          if r ≠ [] then
            some (m :: '{' :: '-' :: r.filter (fun c => c ≠ ' ') ++ ['}'], r2)
          else if w ≠ [] then
            some (m :: '{' :: '-' :: w.getLast?.toList.filter (fun c => c ≠ ' ')
              ++ ['}'], r2)
          else none
        | _ => none
      | _ => none
    else none
  | _ => none

def subScriptNeg (m : Char) : Nat → List Char → List Char
  | 0, s => s
  | _, [] => []
  | fuel + 1, c :: cs =>
    match tryScriptNeg m (c :: cs) with
    | some (repl, rest) => repl ++ subScriptNeg m fuel rest
    | none => c :: subScriptNeg m fuel cs

/-- `re.sub(r"\{\s*([^{}]*?)\s*\}", lambda ..., s)`: normalize the interior
of every innermost brace-free brace pair. -/
def subBraceNorm : Nat → List Char → List Char
  | 0, s => s
  | _, [] => []
  | fuel + 1, c :: cs =>
    if c = '{' then
      let b := cs.takeWhile (fun x => x ≠ '{' && x ≠ '}')
      match cs.drop b.length with
      | '}' :: rest =>
        '{' :: pyStrip (collapseWs (pyStrip b)) ++ '}' :: subBraceNorm fuel rest
      | _ => c :: subBraceNorm fuel cs
    else c :: subBraceNorm fuel cs

/-- `_format_math_buffer` from `crawler.py` (lines 506–538). -/
def formatMath (s : List Char) : List Char :=
  let b := pyStrip s
  if b = [] then b
  else
    let b := collapseWs b
    let b := subSpaceAround '=' " = ".data b
    let b := subSpaceAround '+' " + ".data b
    let b := subSpaceAround '-' " - ".data b
    let b := subSpaceAround '*' " * ".data b
    let b := subSpaceAround '/' " / ".data b
    let b := subSpaceAround ',' ", ".data b
    let b := subSpaceAround '(' "(".data b
    let b := subSpaceAround ')' ")".data b
    let b := collapseWs b
    let b := subSpaceAround '^' "^".data b
    let b := subSpaceAround '_' "_".data b
    let b := subScriptNeg '^' (b.length + 1) b
    let b := subScriptNeg '_' (b.length + 1) b
    let b := subBraceNorm (b.length + 1) b
    let b := replaceAll " ,".data ",".data (b.length + 1) b
    pyStrip b

/-- The `_MATH_CONNECTOR_RE` character class
`[\s,;:+\-*/=0-9\.\··，。．]`. -/
def isConnectorChar (c : Char) : Bool :=
  isPyWs c || c = ',' || c = ';' || c = ':' || c = '+' || c = '-' || c = '*' ||
  c = '/' || c = '=' || ('0' ≤ c && c ≤ '9') || c = '.' || c = '·' ||
  c = '，' || c = '。' || c = '．'

/-- `_MATH_CONNECTOR_RE.fullmatch(content)`. -/
def isConnector (s : List Char) : Bool :=
  s ≠ [] && s.all isConnectorChar

/-- The segmentation loop of `_cleanup_math_tokens` (lines 545–559): split
into alternating `(math, content)` / `(text, content)` segments; an
unmatched opening `$` drops everything from it on (`break`). -/
def splitSegs : Nat → List Char → List (Bool × List Char)
  | 0, _ => []
  | _, [] => []
  | fuel + 1, '$' :: rest =>
    let g := rest.takeWhile (fun c => c ≠ '$')
    match rest.drop g.length with
    | '$' :: rest' => (true, g) :: splitSegs fuel rest'
    | _ => []
  | fuel + 1, c :: cs =>
    let g := (c :: cs).takeWhile (fun x => x ≠ '$')
    (false, g) :: splitSegs fuel ((c :: cs).drop g.length)

/-- The merging loop of `_cleanup_math_tokens` (lines 561–590). -/
def processSegs : List (Bool × List Char) → Option (List Char) → List Char →
    List (List Char) → List (List Char)
  | [], buffer, pending, result =>
    match buffer with
    | some b =>
      let f := formatMath (b ++ pending)
      if f ≠ [] then result ++ ['$' :: f ++ ['$']] else result
    | none => if pending ≠ [] then result ++ [pending] else result
  | (true, content) :: segs, buffer, _pending, result =>
    match buffer with
    | none => processSegs segs (some content) [] result
    | some b => processSegs segs (some (b ++ _pending ++ content)) [] result
  | (false, content) :: segs, buffer, pending, result =>
    match buffer with
    | some b =>
      if isConnector content then
        processSegs segs (some b) (pending ++ content) result
      else
        let f := formatMath (b ++ pending)
        let result := if f ≠ [] then result ++ ['$' :: f ++ ['$']] else result
        processSegs segs none [] (result ++ [content])
    | none => processSegs segs none pending (result ++ [content])

/-- `_cleanup_math_tokens` from `crawler.py` (lines 541–592). -/
def cleanupMath (s : List Char) : List Char :=
  if '$' ∉ s then s
  else (processSegs (splitSegs (s.length + 1) s) none [] []).flatten

/-- String-level `_cleanup_math_tokens`. -/
def cleanupMathS (s : String) : String := String.mk (cleanupMath s.data)

/-- String-level `_convert_markup_to_latex`. -/
def convertMarkupS (s : String) : String := String.mk (convertMarkup s.data)

/-- The full text normalizer: `_cleanup_math_tokens(_convert_markup_to_latex(s))`
as applied by `apply_latex_markup`. -/
def normalizeMarkupS (s : String) : String := cleanupMathS (convertMarkupS s)


theorem answerScan_spec (labels : List (List Char)) (pref? : Option (List Char)) :
    ∀ (rest : List (List Char)) (acc seen : List (List Char))
      (pref : Option (List Char)),
      (pref = pref? ∨ pref = none) →
      (∀ p, pref = none → pref? = some p → p ∈ seen) →
      (∀ p, pref = some p → p ∈ labels ∧ p ∈ rest) →
      (answerScan labels rest acc seen pref).1 =
          acc ++ amendedScan labels pref? rest seen ∧
        (answerScan labels rest acc seen pref).2.2 = none := by
  intro rest
  induction rest with
  | nil =>
    intro acc seen pref h1 _h2 h3
    have hpref : pref = none := by
      cases pref with
      | none => rfl
      | some p => exact absurd (h3 p rfl).2 (List.not_mem_nil p)
    subst hpref
    simp [answerScan, amendedScan]
  | cons line rest ih =>
    intro acc seen pref h1 h2 h3
    by_cases hecho : labels ≠ [] ∧ line ∈ labels
    · by_cases hmatch : pref = some line
      · have hp? : pref? = some line := by
          rcases h1 with h | h
          · rw [← h, hmatch]
          · rw [h] at hmatch; exact absurd hmatch (by simp)
        by_cases hseen : line ∈ seen
        · have step : answerScan labels (line :: rest) acc seen pref =
              answerScan labels rest acc seen none := by
            simp [answerScan, hecho, hmatch, hseen]
          have hamend : amendedScan labels pref? (line :: rest) seen =
              amendedScan labels pref? rest seen := by
            simp [amendedScan, hecho, hp?, hseen]
          rw [step, hamend]
          exact ih acc seen none (Or.inr rfl)
            (fun p _ hp => by rw [hp?] at hp; cases hp; exact hseen)
            (fun p hp => by cases hp)
        · have step : answerScan labels (line :: rest) acc seen pref =
              answerScan labels rest (acc ++ [line]) (line :: seen) none := by
            simp [answerScan, hecho, hmatch, hseen]
          have hamend : amendedScan labels pref? (line :: rest) seen =
              line :: amendedScan labels pref? rest (line :: seen) := by
            simp [amendedScan, hecho, hp?, hseen]
          rw [step, hamend]
          have := ih (acc ++ [line]) (line :: seen) none (Or.inr rfl)
            (fun p _ hp => by rw [hp?] at hp; cases hp; exact List.mem_cons_self _ _)
            (fun p hp => by cases hp)
          simpa using this
      · have step : answerScan labels (line :: rest) acc seen pref =
            answerScan labels rest acc seen pref := by
          simp [answerScan, hecho, hmatch]
        have hamend : amendedScan labels pref? (line :: rest) seen =
            amendedScan labels pref? rest seen := by
          by_cases hp? : pref? = some line
          · -- then `pref = none` and `line ∈ seen` by the second invariant
            have hprefnone : pref = none := by
              rcases h1 with h | h
              · rw [h] at hmatch; exact absurd hp? hmatch
              · exact h
            have hseen : line ∈ seen := h2 line hprefnone hp?
            simp [amendedScan, hecho, hp?, hseen]
          · simp [amendedScan, hecho, hp?]
        rw [step, hamend]
        exact ih acc seen pref h1 h2
          (fun p hp => by
            obtain ⟨hl, hm⟩ := h3 p hp
            refine ⟨hl, ?_⟩
            rcases List.mem_cons.mp hm with h | h
            · exact absurd (hp.trans (by rw [h])) hmatch
            · exact h)
    · have step : answerScan labels (line :: rest) acc seen pref =
          if line ∈ seen then answerScan labels rest acc seen pref
          else answerScan labels rest (acc ++ [line]) (line :: seen) pref := by
        simp [answerScan, hecho]
      have hamend : amendedScan labels pref? (line :: rest) seen =
          if line ∈ seen then amendedScan labels pref? rest seen
          else line :: amendedScan labels pref? rest (line :: seen) := by
        simp [amendedScan, hecho]
      have hline : ∀ p, pref = some p → p ≠ line := by
        intro p hp hpl
        obtain ⟨hl, _⟩ := h3 p hp
        apply hecho
        constructor
        · intro hnil; rw [hnil] at hl; cases hl
        · rw [← hpl]; exact hl
      by_cases hseen : line ∈ seen
      · rw [step, hamend]; simp only [hseen, if_pos]
        exact ih acc seen pref h1 h2
          (fun p hp => by
            obtain ⟨hl, hm⟩ := h3 p hp
            exact ⟨hl, by
              rcases List.mem_cons.mp hm with h | h
              · exact absurd h (hline p hp)
              · exact h⟩)
      · rw [step, hamend]; simp only [hseen, if_neg, not_false_iff]
        have := ih (acc ++ [line]) (line :: seen) pref h1
          (fun p hn hp => List.mem_cons_of_mem _ (h2 p hn hp))
          (fun p hp => by
            obtain ⟨hl, hm⟩ := h3 p hp
            exact ⟨hl, by
              rcases List.mem_cons.mp hm with h | h
              · exact absurd h (hline p hp)
              · exact h⟩)
        simpa using this

theorem finalizeAnswerLines_eq_amended (rawLines labels : List (List Char)) :
    finalizeAnswerLines rawLines labels = amendedAnswerLines rawLines labels := by
  have h := answerScan_spec labels ((rawAnswers rawLines).find? (· ∈ labels))
    (rawAnswers rawLines) [] [] ((rawAnswers rawLines).find? (· ∈ labels))
    (Or.inl rfl)
    (fun p hn hp => by rw [hn] at hp; cases hp)
    (fun p hp => by
      have hfs := List.find?_some hp
      exact ⟨by simpa using hfs, List.mem_of_find?_eq_some hp⟩)
  unfold finalizeAnswerLines amendedAnswerLines
  rcases hE : answerScan labels (rawAnswers rawLines) [] []
      ((rawAnswers rawLines).find? (· ∈ labels)) with ⟨A, S, P⟩
  rw [hE] at h
  obtain ⟨hA, hP⟩ := h
  simp only at hA hP
  subst hP
  simpa using hA

/-- C1 (corrected, counterexample): on raw answer lines
`["A", "A,C explanation"]` with a choice labeled `A`, the finalizer yields
`["A", "A,C explanation"]` — the preferred echo is emitted at its first
occurrence, not deferred to the end as the claim states, so the claimed
output `["A,C explanation", "A"]` is wrong. -/
theorem finalize_answer_echo_deferral_counterexample :
    finalizeAnswerLinesS ["A", "A,C explanation"] ["A"] =
        ["A", "A,C explanation"] ∧
      finalizeAnswerLinesS ["A", "A,C explanation"] ["A"] ≠
        ["A,C explanation", "A"] := by
  refine ⟨by decide, by decide⟩

/-- C1 (amended): for every QAItem, the finalizer computes `answer_lines`
from the raw answer-line captures by the rule: scanning stripped nonempty raw
lines in order, every echo other than the preferred (first-seen) one is
skipped unconditionally; the preferred echo is emitted once at its *first*
occurrence; every non-echo line is kept once with exact duplicates dropped.
In particular raw lines `["A", "A,C explanation"]` with a choice labeled `A`
finalize to `["A", "A,C explanation"]`. -/
theorem finalize_answer_lines_amended :
    (∀ rawLines labels,
        finalizeAnswerLinesS rawLines labels = amendedAnswerLinesS rawLines labels) ∧
      finalizeAnswerLinesS ["A", "A,C explanation"] ["A"] =
        ["A", "A,C explanation"] := by
  constructor
  · intro rawLines labels
    unfold finalizeAnswerLinesS amendedAnswerLinesS
    rw [finalizeAnswerLines_eq_amended]
  · decide

theorem dedupFirst_nil : dedupFirst [] = [] := by
  rw [dedupFirst]

theorem dedupFirst_cons (x : String) (xs : List String) :
    dedupFirst (x :: xs) = x :: dedupFirst (xs.filter (· ≠ x)) := by
  rw [dedupFirst]

theorem mem_dedupFirst {xs : List String} {y : String} :
    y ∈ dedupFirst xs ↔ y ∈ xs := by
  induction xs using dedupFirst.induct with
  | case1 => simp [dedupFirst_nil]
  | case2 x xs ih =>
    rw [dedupFirst_cons]
    constructor
    · intro hy
      rcases List.mem_cons.mp hy with h | h
      · exact h ▸ List.mem_cons_self _ _
      · exact List.mem_cons_of_mem _ (List.mem_of_mem_filter (ih.mp h))
    · intro hy
      rcases List.mem_cons.mp hy with h | h
      · exact h ▸ List.mem_cons_self _ _
      · by_cases hyx : y = x
        · exact hyx ▸ List.mem_cons_self _ _
        · exact List.mem_cons_of_mem _
            (ih.mpr (List.mem_filter.mpr ⟨h, by simpa using hyx⟩))

theorem nodup_dedupFirst (xs : List String) : (dedupFirst xs).Nodup := by
  induction xs using dedupFirst.induct with
  | case1 => simp [dedupFirst_nil]
  | case2 x xs ih =>
    rw [dedupFirst_cons]
    refine List.nodup_cons.mpr ⟨?_, ih⟩
    intro hx
    have := List.of_mem_filter (mem_dedupFirst.mp hx)
    simp at this

theorem foldl_addSeen_eq (xs : List String) :
    ∀ acc : List String,
      xs.foldl addSeen acc = acc ++ dedupFirst (xs.filter (· ∉ acc)) := by
  induction xs with
  | nil => intro acc; simp [dedupFirst_nil]
  | cons x xs ih =>
    intro acc
    by_cases hx : x ∈ acc
    · have step : (x :: xs).foldl addSeen acc = xs.foldl addSeen acc := by
        simp [addSeen, hx]
      rw [step, ih acc]
      have : (x :: xs).filter (· ∉ acc) = xs.filter (· ∉ acc) := by
        simp [List.filter_cons, hx]
      rw [this]
    · have step : (x :: xs).foldl addSeen acc = xs.foldl addSeen (acc ++ [x]) := by
        simp [addSeen, hx]
      have harg : xs.filter (fun a => a ∉ acc ++ [x]) =
          (xs.filter (fun a => a ∉ acc)).filter (fun a => a ≠ x) := by
        rw [List.filter_filter]
        apply List.filter_congr
        intro a _
        by_cases hax : a = x <;> by_cases hacc : a ∈ acc <;>
          simp [hax, hacc, List.mem_append]
      have hfilter : (x :: xs).filter (· ∉ acc) = x :: xs.filter (· ∉ acc) := by
        simp [List.filter_cons, hx]
      rw [step, ih (acc ++ [x]), harg, hfilter, dedupFirst_cons,
        List.append_assoc, List.singleton_append]

/-- The chapter-wide ledger over a URL stream equals the first-occurrence
dedup of the stream: each URL appears at most once, in first-occurrence
order. -/
theorem foldl_addSeen_dedupFirst (xs : List String) :
    xs.foldl addSeen [] = dedupFirst xs := by
  rw [foldl_addSeen_eq xs []]
  simp

/-! ### Chapter title (C8) -/

theorem flushQa_title (st : BState) : (flushQa st).title = st.title := by
  unfold flushQa
  cases st.curQa <;> cases hc : st.cur <;> simp

theorem ensureCur_title (st : BState) : (ensureCur st).title = st.title := by
  unfold ensureCur
  cases st.cur <;> simp

theorem appendItem_title (st : BState) (it : SItem) :
    (appendItem st it).title = st.title := by
  unfold appendItem
  cases h : (ensureCur st).cur <;> simp [← ensureCur_title st, h]

theorem setQa_title (st : BState) (f : BQa → BQa) : (setQa st f).title = st.title := rfl

theorem processImgSpans_title (imgs : List ImgData) :
    ∀ st : BState, (processImgSpans st imgs).title = st.title := by
  induction imgs with
  | nil => intro st; rfl
  | cons d imgs ih =>
    intro st
    show (processImgSpans _ imgs).title = st.title
    rw [ih]
    by_cases hd : d.src = ""
    · simp [hd]
    · cases hq : st.curQa <;> simp [hd, hq, appendItem_title]

theorem stepRest_title (st : BState) (node : Node) (classes : List String)
    (text : String) : (stepRest st node classes text).title = st.title := by
  unfold stepRest
  split
  · rw [appendItem_title, flushQa_title]
  · split
    · simp only []
      rw [flushQa_title]
    · split
      · cases h : st.curQa <;> simp [h, appendItem_title]
      · split
        · cases h : st.curQa <;> simp [h, appendItem_title]
        · rw [processImgSpans_title]
          split
          · cases h : st.curQa <;> simp [h, appendItem_title]
          · rfl

theorem stepNode_title (st : BState) (n : Node)
    (h : ¬(n.isTag = true ∧ n.name = "p" ∧ "ArtH1" ∈ n.classes)) :
    (stepNode st n).title = st.title := by
  unfold stepNode
  by_cases htag : n.isTag
  · simp only [htag, Bool.not_true, Bool.false_eq_true, if_neg, ite_false,
      Bool.true_eq_false, not_false_eq_true, reduceIte]
    by_cases hp : n.name = "p"
    · have hart : "ArtH1" ∉ n.classes := fun hc => h ⟨htag, hp, hc⟩
      simp only [hp, if_pos, reduceIte, hart, if_neg, not_false_eq_true]
      split
      · rw [flushQa_title]
      · split
        · rfl
        · split
          · split
            · rw [setQa_title, ensureCur_title]
            · split
              · split
                · rw [setQa_title, ensureCur_title]
                · rw [ensureCur_title]
              · rw [stepRest_title, ensureCur_title]
          · rw [stepRest_title, ensureCur_title]
    · simp only [hp, if_neg, not_false_eq_true, reduceIte]
      split
      · split
        · rfl
        · cases hq : st.curQa <;> simp [hq, appendItem_title]
      · rfl
  · simp [htag]

/-- C8: for every input document with no chapter-title (`ArtH1`) node, the
structural parse completes (the embedding is total) and the resulting
chapter's `title` field is the empty string, its initial value. -/
theorem no_chapter_title_node_keeps_default_title (nodes : List Node)
    (h : ∀ n ∈ nodes, ¬(n.isTag = true ∧ n.name = "p" ∧ "ArtH1" ∈ n.classes)) :
    (buildChapter nodes).title = "" := by
  have main : ∀ ns : List Node,
      (∀ n ∈ ns, ¬(n.isTag = true ∧ n.name = "p" ∧ "ArtH1" ∈ n.classes)) →
      ∀ st : BState, (ns.foldl stepNode st).title = st.title := by
    intro ns
    induction ns with
    | nil => intro _ st; rfl
    | cons n ns ih =>
      intro hns st
      show (ns.foldl stepNode (stepNode st n)).title = st.title
      rw [ih (fun m hm => hns m (List.mem_cons_of_mem _ hm)) (stepNode st n)]
      exact stepNode_title st n (hns n (List.mem_cons_self _ _))
  simp only [buildChapter, closeState, runNodes]
  rw [flushQa_title]
  exact main nodes h initState

/-- Closed witness for `no_chapter_title_node_keeps_default_title`: a concrete
two-node document (a section title and a text paragraph) has no `ArtH1` node
and parses to a chapter with empty title. -/
theorem no_chapter_title_witness :
    (∀ n ∈ [mkPNode ["ArtH2"] "Section 1", mkPNode [] "hello"],
        ¬(n.isTag = true ∧ n.name = "p" ∧ "ArtH1" ∈ n.classes)) ∧
      (buildChapter [mkPNode ["ArtH2"] "Section 1", mkPNode [] "hello"]).title = "" := by
  constructor
  · decide
  · exact no_chapter_title_node_keeps_default_title _ (by decide)

/-! ### Reduction lemmas for single steps -/

/-- A `p` node that is none of `ArtH1` / `ArtH2` / empty-`PSplit` and does not
take the `TagBoxP` answer/resolve branch reduces to `stepRest` on the ensured
container. -/
theorem stepNode_free (st : BState) (n : Node)
    (htag : n.isTag = true) (hp : n.name = "p")
    (h1 : "ArtH1" ∉ n.classes) (h2 : "ArtH2" ∉ n.classes)
    (h3 : ¬("PSplit" ∈ n.classes ∧ normalizeTextS n.rawMarkup = ""))
    (h4 : ¬("TagBoxP" ∈ n.classes ∧ (ensureCur st).curQa ≠ none)) :
    stepNode st n =
      stepRest (ensureCur st) n n.classes (normalizeTextS n.rawMarkup) := by
  unfold stepNode
  simp [htag, hp, h1, h2, h3, h4]

/-- A node reaching the free-text region of the loop body routes its text per
the open question and then processes its image spans. -/
theorem stepRest_free (st : BState) (n : Node) (classes : List String)
    (text : String)
    (h1 : "TiXing" ∉ classes) (h2 : "QuestionTitle" ∉ classes)
    (h3 : text.startsWith "【答案】" = false)
    (h4 : text.startsWith "【解析】" = false)
    (h5 : text ≠ "") :
    stepRest st n classes text =
      processImgSpans
        (match st.curQa with
         | some q => { st with curQa := some (routeFreeText q text) }
         | none => appendItem st (SItem.text text))
        n.imgSpans := by
  unfold stepRest
  simp [h1, h2, h3, h4, h5]

/-! ### Section creation (C7) -/

/-- C7 (corrected, counterexample): a single unclassified `p` node with empty
text and no images contributes no item, yet the parse creates an untitled
empty Section for it (because `container = get_container()` runs before the
node is known to contribute anything) — refuting "no Section is created by a
node that contributes no item". -/
theorem empty_node_creates_section_counterexample :
    (buildChapter [mkPNode [] ""]).sections = [{ title := none, items := [] }] := by
  decide

/-- C7 (amended): a Section is created when a section-title (`ArtH2`) block is
seen (a new Section with that title, directly from the node's text), or
lazily with `title = none` as soon as any paragraph node reaches the
container-requiring path while no section is open — even if that node
contributes no item.  In particular, a chapter whose first classified node is
content gets an untitled Section entry holding that first content item. -/
theorem section_creation_rule :
    (∀ (st : BState) (n : Node), n.isTag = true → n.name = "p" →
        "ArtH1" ∉ n.classes → "ArtH2" ∈ n.classes →
        (stepNode st n).cur = some ⟨some (normalizeTextS n.rawMarkup), []⟩) ∧
      (∀ st : BState, st.cur = none → st.curQa = none →
        (stepNode st (mkPNode [] "hello")).cur =
          some ⟨none, [SItem.text "hello"]⟩) ∧
      buildChapter [mkPNode [] "hello"] =
        { title := "", sections := [⟨none, [SItem.text "hello"]⟩], images := [] } := by
  refine ⟨?_, ?_, by decide⟩
  · intro st n htag hp hart hart2
    unfold stepNode
    simp [htag, hp, hart, hart2]
  · intro st hcur hqa
    have hens : ensureCur st = { st with cur := some ⟨none, []⟩ } := by
      unfold ensureCur
      rw [hcur]
    rw [stepNode_free st (mkPNode [] "hello") rfl rfl (by decide) (by decide)
      (by decide) (by rw [hens]; simp [hqa])]
    have htext : normalizeTextS (mkPNode [] "hello").rawMarkup = "hello" := by decide
    rw [htext]
    rw [stepRest_free _ _ _ _ (by decide) (by decide) (by decide) (by decide)
      (by decide)]
    have hqa' : (ensureCur st).curQa = none := by rw [hens]; exact hqa
    have himgs : (mkPNode [] "hello").imgSpans = [] := rfl
    rw [himgs]
    simp only [hqa']
    show (appendItem (ensureCur st) (SItem.text "hello")).cur = _
    simp [appendItem, ensureCur, hcur]

/-- Closed witness for `section_creation_rule`, applying it at concrete
inputs. -/
theorem section_creation_rule_witness :
    (stepNode initState (mkPNode ["ArtH2"] "Sec")).cur = some ⟨some "Sec", []⟩ ∧
      (stepNode initState (mkPNode [] "hello")).cur =
        some ⟨none, [SItem.text "hello"]⟩ := by
  constructor
  · have h := section_creation_rule.1 initState (mkPNode ["ArtH2"] "Sec") rfl rfl
      (by decide) (by decide)
    have he : normalizeTextS (mkPNode ["ArtH2"] "Sec").rawMarkup = "Sec" := by decide
    rw [he] at h
    exact h
  · exact section_creation_rule.2.1 initState rfl rfl

theorem updateNth_map_label (f : BChoice → BChoice)
    (hf : ∀ ch, (f ch).label = ch.label) :
    ∀ (l : List BChoice) (i : Nat),
      (updateNth l i f).map BChoice.label = l.map BChoice.label := by
  intro l
  induction l with
  | nil => intro i; rfl
  | cons x xs ih =>
    intro i
    cases i with
    | zero => simp [updateNth, hf]
    | succ n => simp [updateNth, ih]

/-- C6 (corrected, counterexample): the free text `"A.x"` — label `A`
followed by a bare `"."` with no subsequent space — does not satisfy the
claim's delimiter list (which requires `". "`), yet processing it while a
question is open and unanswered opens a new choice labeled `A` with content
`["x"]`. -/
theorem choice_opening_counterexample :
    claimOpensChoice "A.x" = false ∧
      (stepNode { initState with cur := some ⟨none, []⟩, curQa := some emptyQa }
          (mkPNode [] "A.x")).curQa =
        some { emptyQa with choices := [⟨'A', [Part.txt "x"], []⟩],
                            activeChoice := some 0 } := by
  constructor
  · decide
  · decide

theorem ensureCur_curQa (st : BState) : (ensureCur st).curQa = st.curQa := by
  unfold ensureCur
  cases st.cur <;> simp

theorem appendItem_curQa (st : BState) (it : SItem) :
    (appendItem st it).curQa = st.curQa := by
  unfold appendItem
  cases h : (ensureCur st).cur <;> simp [h, ← ensureCur_curQa st]

/-- `amendedChoiceOf` is `_split_choice` re-read as a choice constructor. -/
theorem amendedChoiceOf_eq (tx : String) :
    amendedChoiceOf tx =
      (match splitChoice tx.data with
       | (some l, r) =>
         some ⟨l, if r ≠ [] then [Part.txt (String.mk r)] else [], []⟩
       | (none, _) => none) := by
  unfold amendedChoiceOf splitChoice
  by_cases hnil : tx.data = []
  · rw [if_pos hnil, hnil]
    rfl
  · rw [if_neg hnil]
    cases hstrip : pyStrip tx.data with
    | nil => rfl
    | cons c rest =>
      by_cases hlab : isLabelChar c
      · cases rest with
        | nil => simp [hlab]
        | cons d tail =>
          by_cases hdel : isChoiceDelim d
          · simp [hlab, hdel]
          · simp [hlab, hdel]
      · simp [hlab]

/-- C6 (amended): while a question is open and no answer line has been
recorded, a routed free-text node opens a new Choice if and only if its
stripped text starts with a label character (A–Z or a full-width equivalent)
that either is the entire text or is followed immediately by one of the
single delimiter characters `．`, `.`, `、`, `)`, `）`, `：`, `:`, or a bare
space; the new Choice carries that label, receives the remainder with all
leading delimiter characters stripped as its first content part (omitted when
empty), and becomes the active choice.  Otherwise no new choice is opened and
the active choice is unchanged. -/
theorem choice_opening_rule :
    (∀ (q : BQa) (tx : String), q.answerLines = [] →
        (∀ ch, amendedChoiceOf tx = some ch →
          routeFreeText q tx =
            { q with choices := q.choices ++ [ch],
                     activeChoice := some q.choices.length }) ∧
        (amendedChoiceOf tx = none →
          (routeFreeText q tx).choices.map BChoice.label =
              q.choices.map BChoice.label ∧
            (routeFreeText q tx).activeChoice = q.activeChoice)) ∧
      (∀ (st : BState) (n : Node) (q : BQa),
        n.isTag = true → n.name = "p" →
        (∀ c ∈ ["ArtH1", "ArtH2", "PSplit", "TagBoxP", "TiXing", "QuestionTitle"],
          c ∉ n.classes) →
        st.curQa = some q → n.imgSpans = [] →
        normalizeTextS n.rawMarkup ≠ "" →
        (normalizeTextS n.rawMarkup).startsWith "【答案】" = false →
        (normalizeTextS n.rawMarkup).startsWith "【解析】" = false →
        (stepNode st n).curQa =
          some (routeFreeText q (normalizeTextS n.rawMarkup))) := by
  constructor
  · intro q tx hans
    rw [amendedChoiceOf_eq]
    unfold routeFreeText
    rw [if_pos hans]
    rcases hsp : splitChoice tx.data with ⟨l, r⟩
    cases l with
    | some lab =>
      constructor
      · intro ch hch
        simp only [Option.some.injEq] at hch
        subst hch
        rfl
      · intro hnone
        simp at hnone
    | none =>
      constructor
      · intro ch hch
        simp at hch
      · intro _
        cases hact : q.activeChoice with
        | some i =>
          refine ⟨?_, ?_⟩
          · simp only [hact]
            exact updateNth_map_label
              (fun ch => { ch with content := ch.content ++ [Part.txt tx] })
              (fun ch => rfl) q.choices i
          · simp [hact]
        | none => simp [hact]
  · intro st n q htag hp hcl hqa himgs htx hm1 hm2
    have h1 : "ArtH1" ∉ n.classes := hcl _ (by simp)
    have h2 : "ArtH2" ∉ n.classes := hcl _ (by simp)
    have h3 : "PSplit" ∉ n.classes := hcl _ (by simp)
    have h4 : "TagBoxP" ∉ n.classes := hcl _ (by simp)
    have h5 : "TiXing" ∉ n.classes := hcl _ (by simp)
    have h6 : "QuestionTitle" ∉ n.classes := hcl _ (by simp)
    rw [stepNode_free st n htag hp h1 h2 (fun hc => h3 hc.1) (fun hc => h4 hc.1)]
    rw [stepRest_free _ n n.classes _ h5 h6 hm1 hm2 htx]
    have hqa' : (ensureCur st).curQa = some q := by rw [ensureCur_curQa]; exact hqa
    rw [himgs]
    simp only [hqa']
    rfl

/-- Closed witness for `choice_opening_rule`, applying it at concrete
inputs. -/
theorem choice_opening_rule_witness :
    routeFreeText emptyQa "B、blue" =
        { emptyQa with choices := [⟨'B', [Part.txt "blue"], []⟩],
                       activeChoice := some 0 } ∧
      (stepNode { initState with cur := some ⟨none, []⟩, curQa := some emptyQa }
          (mkPNode [] "not a choice")).curQa =
        some (routeFreeText emptyQa "not a choice") := by
  constructor
  · exact (choice_opening_rule.1 emptyQa "B、blue" rfl).1 _ (by decide)
  · have h := choice_opening_rule.2
      { initState with cur := some ⟨none, []⟩, curQa := some emptyQa }
      (mkPNode [] "not a choice") emptyQa rfl rfl (by decide) rfl rfl
      (by decide) (by decide) (by decide)
    have he : normalizeTextS (mkPNode [] "not a choice").rawMarkup =
        "not a choice" := by decide
    rw [he] at h
    exact h

/-! ### Post-answer routing (C5) -/

theorem flushQa_curQa_none (st : BState) : (flushQa st).curQa = none ∨
    (flushQa st).curQa = st.curQa := by
  unfold flushQa
  cases hq : st.curQa with
  | none => right; simp [hq]
  | some q =>
    left
    cases hc : st.cur <;> simp [hq, hc]

theorem flushQa_curQa_of_some {st : BState} {q : BQa} (h : st.curQa = some q) :
    (flushQa st).curQa = none := by
  unfold flushQa
  cases hc : st.cur <;> simp [h, hc]

theorem routeQaImage_postAnswer (q : BQa) (d : ImgData)
    (h : q.answerLines ≠ []) :
    routeQaImage q d = { q with analysisLines := q.analysisLines ++ [Part.img d] } := by
  unfold routeQaImage
  rw [if_neg (by simpa using h)]

theorem routeFreeText_postAnswer (q : BQa) (tx : String)
    (h : q.answerLines ≠ []) :
    routeFreeText q tx = { q with analysisLines := q.analysisLines ++ [Part.txt tx] } := by
  unfold routeFreeText
  rw [if_neg (by simpa using h)]

theorem processImgSpans_postAnswer (imgs : List ImgData) :
    ∀ (st : BState) (q : BQa), st.curQa = some q → q.answerLines ≠ [] →
      ∃ add, (processImgSpans st imgs).curQa =
        some { q with analysisLines := q.analysisLines ++ add } := by
  induction imgs with
  | nil =>
    intro st q hq _
    refine ⟨[], ?_⟩
    show st.curQa = _
    simpa using hq
  | cons d imgs ih =>
    intro st q hq hans
    by_cases hd : d.src = ""
    · have step : processImgSpans st (d :: imgs) = processImgSpans st imgs := by
        show List.foldl _ _ (d :: imgs) = _
        rw [List.foldl_cons]
        congr 1
        simp [hd]
      rw [step]
      exact ih st q hq hans
    · obtain ⟨add, hadd⟩ := ih
        { st with curQa := some (routeQaImage q d), seen := addSeen st.seen d.src }
        (routeQaImage q d) rfl
        (by rw [routeQaImage_postAnswer q d hans]; simpa using hans)
      refine ⟨[Part.img d] ++ add, ?_⟩
      have step : processImgSpans st (d :: imgs) =
          processImgSpans
            { st with curQa := some (routeQaImage q d),
                      seen := addSeen st.seen d.src } imgs := by
        show List.foldl _ _ (d :: imgs) = _
        rw [List.foldl_cons]
        congr 1
        simp only [hd, Bool.false_eq_true, not_false_eq_true, if_neg, hq]
      rw [step, hadd, routeQaImage_postAnswer q d hans]
      simp

theorem post_answer_stepRest (st : BState) (n : Node) (classes : List String)
    (text : String) (q : BQa) (hq : st.curQa = some q)
    (hans : q.answerLines ≠ []) :
    (stepRest st n classes text).curQa = none ∨
      (stepRest st n classes text).curQa = some (buildQuestionItem n).1 ∨
      ∃ addAns addAnl, (stepRest st n classes text).curQa =
        some { q with answerLines := q.answerLines ++ addAns,
                      analysisLines := q.analysisLines ++ addAnl } := by
  unfold stepRest
  split
  · left
    rw [appendItem_curQa]
    exact flushQa_curQa_of_some hq
  · split
    · right; left
      rcases hb : buildQuestionItem n with ⟨item, imgs⟩
      simp [hb]
    · split
      · right; right
        refine ⟨[pyStripS (text.drop 4)], [], ?_⟩
        simp [hq]
      · split
        · right; right
          refine ⟨[], [Part.txt (pyStripS (text.drop 4))], ?_⟩
          simp [hq]
        · right; right
          split
          · rcases processImgSpans_postAnswer n.imgSpans
              { st with curQa := some (routeFreeText q text) }
              (routeFreeText q text) rfl
              (by rw [routeFreeText_postAnswer q text hans]; simpa using hans)
              with ⟨add, hadd⟩
            refine ⟨[], Part.txt text :: add, ?_⟩
            simp only [hq]
            rw [hadd, routeFreeText_postAnswer q text hans]
            simp
          · rcases processImgSpans_postAnswer n.imgSpans st q hq hans
              with ⟨add, hadd⟩
            exact ⟨[], add, by rw [hadd]; simp⟩

/-- C5 (confirmed): once any answer line has been recorded for the open
QAItem, a subsequent node either closes it, or replaces it with a fresh
question-start item, or leaves everything except `answer_lines` /
`analysis_lines` untouched (so no later node ever reaches a choice's content
or `question_extra`); in particular a routed free-text node appends exactly
its text to `analysis_lines`.  Equivalently, the active choice is consulted
only while `answer_lines` is empty. -/
theorem post_answer_routing (st : BState) (n : Node) (q : BQa)
    (hq : st.curQa = some q) (hans : q.answerLines ≠ []) :
    ((stepNode st n).curQa = none ∨
      (stepNode st n).curQa = some (buildQuestionItem n).1 ∨
      ∃ addAns addAnl, (stepNode st n).curQa =
        some { q with answerLines := q.answerLines ++ addAns,
                      analysisLines := q.analysisLines ++ addAnl }) ∧
    (n.isTag = true → n.name = "p" →
      (∀ c ∈ ["ArtH1", "ArtH2", "PSplit", "TagBoxP", "TiXing", "QuestionTitle"],
        c ∉ n.classes) →
      n.imgSpans = [] →
      normalizeTextS n.rawMarkup ≠ "" →
      (normalizeTextS n.rawMarkup).startsWith "【答案】" = false →
      (normalizeTextS n.rawMarkup).startsWith "【解析】" = false →
      (stepNode st n).curQa =
        some { q with analysisLines :=
          q.analysisLines ++ [Part.txt (normalizeTextS n.rawMarkup)] }) := by
  have hens : (ensureCur st).curQa = some q := by rw [ensureCur_curQa]; exact hq
  constructor
  · unfold stepNode
    by_cases htag : n.isTag
    · simp only [htag, Bool.not_true, Bool.false_eq_true, not_false_eq_true,
        reduceIte]
      by_cases hp : n.name = "p"
      · simp only [hp, reduceIte]
        split
        · left
          show (flushQa st).curQa = none
          exact flushQa_curQa_of_some hq
        · split
          · left
            show (flushQa st).curQa = none
            exact flushQa_curQa_of_some hq
          · split
            · right; right; exact ⟨[], [], by simp [hq]⟩
            · split
              · split
                · right; right
                  rename_i a _
                  refine ⟨[a], [], ?_⟩
                  simp [setQa, hens]
                · split
                  · split
                    · right; right
                      rename_i r heq hne
                      refine ⟨[], [Part.txt (normalizeTextS r)], ?_⟩
                      simp [setQa, hens]
                    · right; right; exact ⟨[], [], by simp [hens]⟩
                  · exact post_answer_stepRest _ n _ _ q hens hans
              · exact post_answer_stepRest _ n _ _ q hens hans
      · simp only [hp, if_neg, not_false_eq_true, reduceIte]
        split
        · split
          · right; right; exact ⟨[], [], by simp [hq]⟩
          · right; right
            rename_i hsrc
            refine ⟨[], [Part.img n.spanImg], ?_⟩
            simp only [hq]
            show some (routeQaImage q n.spanImg) = _
            rw [routeQaImage_postAnswer q n.spanImg hans]
            simp
        · right; right; exact ⟨[], [], by simp [hq]⟩
    · right; right
      refine ⟨[], [], ?_⟩
      simp [htag, hq]
  · intro htag hp hcl himgs htx hm1 hm2
    have h1 : "ArtH1" ∉ n.classes := hcl _ (by simp)
    have h2 : "ArtH2" ∉ n.classes := hcl _ (by simp)
    have h3 : "PSplit" ∉ n.classes := hcl _ (by simp)
    have h4 : "TagBoxP" ∉ n.classes := hcl _ (by simp)
    have h5 : "TiXing" ∉ n.classes := hcl _ (by simp)
    have h6 : "QuestionTitle" ∉ n.classes := hcl _ (by simp)
    rw [stepNode_free st n htag hp h1 h2 (fun hc => h3 hc.1) (fun hc => h4 hc.1)]
    rw [stepRest_free _ n n.classes _ h5 h6 hm1 hm2 htx]
    rw [himgs]
    simp only [hens]
    show some (routeFreeText q (normalizeTextS n.rawMarkup)) = _
    rw [routeFreeText_postAnswer q _ hans]

/-- Closed witness for `post_answer_routing`, applying it at a concrete
post-answer state and free-text node. -/
theorem post_answer_routing_witness :
    (stepNode postAnswerState (mkPNode [] "explanation")).curQa =
      some { emptyQa with answerLines := ["A"],
                          analysisLines := [Part.txt "explanation"] } := by
  have h := (post_answer_routing postAnswerState (mkPNode [] "explanation")
      { emptyQa with answerLines := ["A"] } rfl (by decide)).2
      rfl rfl (by decide) rfl (by decide) (by decide) (by decide)
  have he : normalizeTextS (mkPNode [] "explanation").rawMarkup =
      "explanation" := by decide
  rw [he] at h
  simpa using h

/-! ### The chapter image ledger as a URL stream (C2, chapter level) -/

theorem ensureCur_seen (st : BState) : (ensureCur st).seen = st.seen := by
  unfold ensureCur
  cases st.cur <;> simp

theorem appendItem_seen (st : BState) (it : SItem) :
    (appendItem st it).seen = st.seen := by
  unfold appendItem
  cases h : (ensureCur st).cur <;> simp [h, ← ensureCur_seen st]

theorem flushQa_seen (st : BState) : (flushQa st).seen = st.seen := by
  unfold flushQa
  cases hq : st.curQa <;> cases hc : st.cur <;> simp

theorem processImgSpans_seen (imgs : List ImgData) :
    ∀ st : BState, (processImgSpans st imgs).seen =
      (imgSpanUrls imgs).foldl addSeen st.seen := by
  induction imgs with
  | nil => intro st; rfl
  | cons d imgs ih =>
    intro st
    by_cases hd : d.src = ""
    · have step : processImgSpans st (d :: imgs) = processImgSpans st imgs := by
        show List.foldl _ _ (d :: imgs) = _
        rw [List.foldl_cons]
        congr 1
        simp [hd]
      rw [step, ih st]
      have : imgSpanUrls (d :: imgs) = imgSpanUrls imgs := by
        simp [imgSpanUrls, List.filter_cons, hd]
      rw [this]
    · have hurls : imgSpanUrls (d :: imgs) = d.src :: imgSpanUrls imgs := by
        simp [imgSpanUrls, List.filter_cons, hd]
      rw [hurls]
      cases hq : st.curQa with
      | some q =>
        have step : processImgSpans st (d :: imgs) =
            processImgSpans
              { st with curQa := some (routeQaImage q d),
                        seen := addSeen st.seen d.src } imgs := by
          show List.foldl _ _ (d :: imgs) = _
          rw [List.foldl_cons]
          congr 1
          simp only [hd, Bool.false_eq_true, not_false_eq_true, if_neg, hq]
        rw [step, ih]
        rfl
      | none =>
        have step : processImgSpans st (d :: imgs) =
            processImgSpans
              { appendItem st (SItem.image d) with
                seen := addSeen (appendItem st (SItem.image d)).seen d.src } imgs := by
          show List.foldl _ _ (d :: imgs) = _
          rw [List.foldl_cons]
          congr 1
          simp only [hd, Bool.false_eq_true, not_false_eq_true, if_neg, hq]
        rw [step, ih]
        simp [appendItem_seen]

theorem stepRest_seen (st : BState) (n : Node) :
    (stepRest st n n.classes (normalizeTextS n.rawMarkup)).seen =
      (stepRestUrls n).foldl addSeen st.seen := by
  unfold stepRest stepRestUrls
  split
  · simp [appendItem_seen, flushQa_seen]
  · split
    · rcases hb : buildQuestionItem n with ⟨item, imgs⟩
      simp only [hb, flushQa_seen]
      rw [List.foldl_map]
    · split
      · cases hq : st.curQa <;> simp [hq, appendItem_seen]
      · split
        · cases hq : st.curQa <;> simp [hq, appendItem_seen]
        · split
          · cases hq : st.curQa with
            | some q =>
              simp only [hq]
              rw [processImgSpans_seen]
            | none =>
              simp only [hq]
              rw [processImgSpans_seen]
              simp [appendItem_seen]
          · rw [processImgSpans_seen]

theorem setQa_seen (st : BState) (f : BQa → BQa) : (setQa st f).seen = st.seen := rfl

theorem stepNode_seen (st : BState) (n : Node) :
    (stepNode st n).seen = (stepUrls st n).foldl addSeen st.seen := by
  unfold stepNode stepUrls
  by_cases htag : n.isTag
  · simp only [htag, Bool.not_true, Bool.false_eq_true, not_false_eq_true,
      reduceIte]
    by_cases hp : n.name = "p"
    · simp only [hp, reduceIte]
      have hcq : (ensureCur st).curQa = st.curQa := ensureCur_curQa st
      split
      · simp [flushQa_seen]
      · split
        · simp [flushQa_seen]
        · split
          · rfl
          · by_cases htb : "TagBoxP" ∈ n.classes ∧ st.curQa ≠ none
            · rw [if_pos (by rw [hcq]; exact htb), if_pos htb]
              split
              · simp [setQa_seen, ensureCur_seen]
              · split
                · split <;> simp [setQa_seen, ensureCur_seen]
                · rw [stepRest_seen, ensureCur_seen]
            · rw [if_neg (by rw [hcq]; exact htb), if_neg htb]
              rw [stepRest_seen, ensureCur_seen]
    · simp only [hp, Bool.false_eq_true, not_false_eq_true, reduceIte]
      split
      · split
        · rfl
        · cases hq : st.curQa <;> simp [hq, appendItem_seen, addSeen]
      · rfl
  · simp [htag]

theorem runNodes_seen (nodes : List Node) :
    ∀ st : BState, (nodes.foldl stepNode st).seen =
      (docUrls st nodes).foldl addSeen st.seen := by
  induction nodes with
  | nil => intro st; rfl
  | cons n ns ih =>
    intro st
    show ((ns.foldl stepNode (stepNode st n))).seen = _
    rw [ih (stepNode st n), stepNode_seen st n]
    unfold docUrls
    rw [List.foldl_append]
    cases ns <;> rfl

/-- The chapter-level image list is the first-occurrence dedup of the
document-order URL stream. -/
theorem buildChapter_images (nodes : List Node) :
    (buildChapter nodes).images = dedupFirst (docUrls initState nodes) := by
  show (flushQa (runNodes nodes)).seen = _
  rw [flushQa_seen]
  unfold runNodes
  rw [runNodes_seen nodes initState]
  exact foldl_addSeen_dedupFirst _

theorem updateUsage_map_url (url : String) (f : Usage → Usage)
    (hf : ∀ e, (f e).url = e.url) :
    ∀ us : List Usage,
      (updateUsage url f us).map Usage.url = us.map Usage.url := by
  intro us
  induction us with
  | nil => rfl
  | cons e es ih =>
    by_cases he : e.url = url
    · simp [updateUsage, he, hf]
    · simp [updateUsage, he, ih]

theorem find?_updateUsage_self (url : String) (f : Usage → Usage)
    (hf : ∀ e, (f e).url = e.url) :
    ∀ (us : List Usage) (e : Usage),
      us.find? (fun x => x.url = url) = some e →
      (updateUsage url f us).find? (fun x => x.url = url) = some (f e) := by
  intro us
  induction us with
  | nil => intro e h; cases h
  | cons x xs ih =>
    intro e h
    by_cases hx : x.url = url
    · rw [List.find?_cons_of_pos _ (by simpa using hx)] at h
      cases h
      simp only [updateUsage, hx, if_pos, reduceIte]
      rw [List.find?_cons_of_pos _ (by simpa using (hf x).trans hx)]
    · rw [List.find?_cons_of_neg _ (by simpa using hx)] at h
      simp only [updateUsage, hx, if_neg, ite_false, Bool.false_eq_true,
        not_false_eq_true]
      rw [List.find?_cons_of_neg _ (by simpa using hx)]
      exact ih e h

theorem find?_updateUsage_ne (url u : String) (f : Usage → Usage)
    (hf : ∀ e, (f e).url = e.url) (hu : u ≠ url) :
    ∀ us : List Usage,
      (updateUsage url f us).find? (fun x => x.url = u) =
        us.find? (fun x => x.url = u) := by
  intro us
  induction us with
  | nil => rfl
  | cons x xs ih =>
    by_cases hx : x.url = url
    · have hfx : (f x).url = x.url := hf x
      by_cases hxu : x.url = u
      · exact absurd (hxu ▸ hx) (by rw [hxu] at hx; exact fun _ => hu hx)
      · simp only [updateUsage, hx, if_pos, reduceIte]
        rw [List.find?_cons_of_neg _ (by simp [hfx, hxu]),
          List.find?_cons_of_neg _ (by simpa using hxu)]
    · simp only [updateUsage, hx, Bool.false_eq_true, not_false_eq_true,
        if_neg, ite_false]
      by_cases hxu : x.url = u
      · rw [List.find?_cons_of_pos _ (by simpa using hxu),
          List.find?_cons_of_pos _ (by simpa using hxu)]
      · rw [List.find?_cons_of_neg _ (by simpa using hxu),
          List.find?_cons_of_neg _ (by simpa using hxu)]
        exact ih

theorem mem_updateUsage (url : String) (f : Usage → Usage) :
    ∀ (us : List Usage) (e : Usage), e ∈ updateUsage url f us →
      e ∈ us ∨ ∃ x ∈ us, e = f x := by
  intro us
  induction us with
  | nil => intro e h; cases h
  | cons x xs ih =>
    intro e h
    by_cases hx : x.url = url
    · simp only [updateUsage, hx, if_pos, reduceIte] at h
      rcases List.mem_cons.mp h with h | h
      · exact Or.inr ⟨x, List.mem_cons_self _ _, h⟩
      · exact Or.inl (List.mem_cons_of_mem _ h)
    · simp only [updateUsage, hx, Bool.false_eq_true, not_false_eq_true,
        if_neg, ite_false] at h
      rcases List.mem_cons.mp h with h | h
      · exact Or.inl (h ▸ List.mem_cons_self _ _)
      · rcases ih e h with h | ⟨y, hy, hey⟩
        · exact Or.inl (List.mem_cons_of_mem _ h)
        · exact Or.inr ⟨y, List.mem_cons_of_mem _ hy, hey⟩

/-- The update closure of `recordUsage` never changes the entry's URL. -/
theorem recordUpdate_url (urlToFile : List (String × String)) (d : ImgData)
    (context : String) (e : Usage) :
    (let e := if optFalsy e.file then
                { e with file := lookupFile urlToFile d.src } else e
     let e := if optFalsy e.width && !(optFalsy d.width) then
                { e with width := d.width } else e
     let e := if optFalsy e.height && !(optFalsy d.height) then
                { e with height := d.height } else e
     if context ∈ e.contexts then e
     else { e with contexts := e.contexts ++ [context] }).url = e.url := by
  dsimp only
  split <;> split <;> split <;> split <;> rfl

/-- The update closure of `recordUsage` appends the context if absent. -/
theorem recordUpdate_contexts (urlToFile : List (String × String)) (d : ImgData)
    (context : String) (e : Usage) :
    (let e := if optFalsy e.file then
                { e with file := lookupFile urlToFile d.src } else e
     let e := if optFalsy e.width && !(optFalsy d.width) then
                { e with width := d.width } else e
     let e := if optFalsy e.height && !(optFalsy d.height) then
                { e with height := d.height } else e
     if context ∈ e.contexts then e
     else { e with contexts := e.contexts ++ [context] }).contexts =
      (if context ∈ e.contexts then e.contexts else e.contexts ++ [context]) := by
  dsimp only
  split <;> split <;> split <;> split <;> rfl

theorem find?_none_not_mem_url {us : List Usage} {u : String}
    (h : us.find? (fun e => e.url = u) = none) : u ∉ us.map Usage.url := by
  intro hmem
  rcases List.mem_map.mp hmem with ⟨e, he, heu⟩
  have := List.find?_eq_none.mp h e he
  simp [heu] at this

theorem ctxOf_recordUsage_ne (urlToFile : List (String × String))
    (us : List Usage) (d : ImgData) (c u : String) (hu : u ≠ d.src) :
    ctxOf (recordUsage urlToFile us d c) u = ctxOf us u := by
  unfold recordUsage
  by_cases hd : d.src = ""
  · rw [if_pos hd]
  · rw [if_neg hd]
    cases hfind : us.find? (fun e => e.url = d.src) with
    | none =>
      unfold ctxOf
      rw [List.find?_append]
      cases hf : us.find? (fun e => e.url = u) with
      | some e => simp
      | none =>
        simp only [Option.none_or]
        rw [List.find?_cons_of_neg _ (by simp [Ne.symm hu])]
        rfl
    | some e =>
      unfold ctxOf
      rw [find?_updateUsage_ne _ _ _ (recordUpdate_url urlToFile d c) hu]

theorem ctxOf_recordUsage_self (urlToFile : List (String × String))
    (us : List Usage) (d : ImgData) (c : String) (hd : d.src ≠ "") :
    ctxOf (recordUsage urlToFile us d c) d.src =
      (if c ∈ ctxOf us d.src then ctxOf us d.src else ctxOf us d.src ++ [c]) := by
  unfold recordUsage
  rw [if_neg hd]
  cases hfind : us.find? (fun e => e.url = d.src) with
  | none =>
    have hctx : ctxOf us d.src = [] := by
      unfold ctxOf
      rw [hfind]
      rfl
    unfold ctxOf
    rw [List.find?_append, hfind]
    simp only [Option.none_or, hctx]
    rw [List.find?_cons_of_pos _ (by simp)]
    simp
  | some e =>
    unfold ctxOf
    rw [find?_updateUsage_self _ _ (recordUpdate_url urlToFile d c) us e hfind,
      hfind]
    simp only [Option.map_some, Option.getD_some]
    exact recordUpdate_contexts urlToFile d c e

theorem recordUsage_map_url_nodup (urlToFile : List (String × String))
    (us : List Usage) (d : ImgData) (c : String)
    (h : (us.map Usage.url).Nodup) :
    ((recordUsage urlToFile us d c).map Usage.url).Nodup := by
  unfold recordUsage
  by_cases hd : d.src = ""
  · rw [if_pos hd]; exact h
  · rw [if_neg hd]
    cases hfind : us.find? (fun e => e.url = d.src) with
    | none =>
      simp only [List.not_mem_nil, if_neg, ite_false, List.map_append,
        List.map_cons, List.map_nil]
      refine List.Nodup.append h (by simp) ?_
      intro a ha hb
      simp only [List.mem_singleton] at hb
      subst hb
      exact find?_none_not_mem_url hfind ha
    | some e =>
      rw [updateUsage_map_url _ _ (recordUpdate_url urlToFile d c)]
      exact h

theorem foldRecord_map_url_nodup (urlToFile : List (String × String)) :
    ∀ (occs : List (ImgData × String)) (us : List Usage),
      (us.map Usage.url).Nodup →
      ((occs.foldl (fun us p => recordUsage urlToFile us p.1 p.2) us).map
          Usage.url).Nodup := by
  intro occs
  induction occs with
  | nil => intro us h; exact h
  | cons p occs ih =>
    intro us h
    exact ih _ (recordUsage_map_url_nodup urlToFile us p.1 p.2 h)

theorem recordUsage_contexts_nodup (urlToFile : List (String × String))
    (us : List Usage) (d : ImgData) (c : String)
    (h : ∀ e ∈ us, e.contexts.Nodup) :
    ∀ e ∈ recordUsage urlToFile us d c, e.contexts.Nodup := by
  unfold recordUsage
  by_cases hd : d.src = ""
  · rw [if_pos hd]; exact h
  · rw [if_neg hd]
    cases hfind : us.find? (fun e => e.url = d.src) with
    | none =>
      intro e he
      rcases List.mem_append.mp he with he | he
      · exact h e he
      · simp only [List.mem_singleton] at he
        subst he
        simp
    | some e0 =>
      intro e he
      rcases mem_updateUsage _ _ us e he with he | ⟨x, hx, hex⟩
      · exact h e he
      · subst hex
        have hx' := h x hx
        rw [recordUpdate_contexts urlToFile d c x]
        split
        · exact hx'
        · rename_i hc
          simp [List.nodup_append, hx', hc]

theorem foldRecord_contexts_nodup (urlToFile : List (String × String)) :
    ∀ (occs : List (ImgData × String)) (us : List Usage),
      (∀ e ∈ us, e.contexts.Nodup) →
      ∀ e ∈ occs.foldl (fun us p => recordUsage urlToFile us p.1 p.2) us,
        e.contexts.Nodup := by
  intro occs
  induction occs with
  | nil => intro us h; exact h
  | cons p occs ih =>
    intro us h
    exact ih _ (recordUsage_contexts_nodup urlToFile us p.1 p.2 h)

theorem foldRecord_ctx_mem (urlToFile : List (String × String)) :
    ∀ (occs : List (ImgData × String)) (us : List Usage),
      (∀ p ∈ occs, p.1.src ≠ "") →
      ∀ u c, c ∈ ctxOf (occs.foldl (fun us p => recordUsage urlToFile us p.1 p.2) us) u ↔
        c ∈ ctxOf us u ∨ ∃ d : ImgData, (d, c) ∈ occs ∧ d.src = u := by
  intro occs
  induction occs with
  | nil =>
    intro us _ u c
    simp
  | cons p occs ih =>
    intro us hne u c
    rcases p with ⟨d0, c0⟩
    have hd0 : d0.src ≠ "" := hne (d0, c0) (List.mem_cons_self _ _)
    have hrest : ∀ p ∈ occs, p.1.src ≠ "" :=
      fun p hp => hne p (List.mem_cons_of_mem _ hp)
    show c ∈ ctxOf (occs.foldl _ (recordUsage urlToFile us d0 c0)) u ↔ _
    rw [ih (recordUsage urlToFile us d0 c0) hrest u c]
    by_cases hu : u = d0.src
    · subst hu
      rw [ctxOf_recordUsage_self urlToFile us d0 c0 hd0]
      constructor
      · intro hh
        rcases hh with hh | hh
        · split at hh
          · exact Or.inl hh
          · rcases List.mem_append.mp hh with hh | hh
            · exact Or.inl hh
            · simp only [List.mem_singleton] at hh
              exact Or.inr ⟨d0, by simp [hh]⟩
        · rcases hh with ⟨d, hd, hdu⟩
          exact Or.inr ⟨d, List.mem_cons_of_mem _ hd, hdu⟩
      · intro hh
        rcases hh with hh | ⟨d, hd, hdu⟩
        · left
          split
          · exact hh
          · exact List.mem_append_left _ hh
        · rcases List.mem_cons.mp hd with hd | hd
          · rcases hd with ⟨rfl, rfl⟩  
            left
            split
            · assumption
            · exact List.mem_append_right _ (by simp)
          · exact Or.inr ⟨d, hd, hdu⟩
    · rw [ctxOf_recordUsage_ne urlToFile us d0 c0 u hu]
      constructor
      · intro hh
        rcases hh with hh | ⟨d, hd, hdu⟩
        · exact Or.inl hh
        · exact Or.inr ⟨d, List.mem_cons_of_mem _ hd, hdu⟩
      · intro hh
        rcases hh with hh | ⟨d, hd, hdu⟩
        · exact Or.inl hh
        · rcases List.mem_cons.mp hd with hd | hd
          · exfalso
            rcases hd with ⟨rfl, rfl⟩
            exact hu hdu.symm
          · exact Or.inr ⟨d, hd, hdu⟩

theorem mem_itemOccurrences (q : BQa) (u c : String) :
    (∃ d : ImgData, (d, c) ∈ itemOccurrences q ∧ d.src = u) ↔ occursWith q u c := by
  unfold itemOccurrences occursWith
  constructor
  · rintro ⟨d, hd, rfl⟩
    simp only [List.mem_append, List.mem_map, Prod.mk.injEq, List.mem_flatten] at hd
    rcases hd with ((⟨x, hx, hxd, hxc⟩ | ⟨x, hx, hxd, hxc⟩) | ⟨x, hx, hxd, hxc⟩) | ⟨l, hl, hdl⟩
    · exact Or.inl ⟨hxc.symm, Or.inl ⟨x, hx, by rw [hxd]⟩⟩
    · exact Or.inl ⟨hxc.symm, Or.inr ⟨x, hx, by rw [hxd]⟩⟩
    · exact Or.inr (Or.inl ⟨hxc.symm, ⟨x, hx, by rw [hxd]⟩⟩)
    · rcases hl with ⟨ch, hch, rfl⟩
      rcases List.mem_append.mp hdl with hdl | hdl <;>
      · rcases List.mem_map.mp hdl with ⟨x, hx, hxe⟩
        rcases Prod.mk.injEq .. ▸ hxe with ⟨hxd, hxc⟩
        exact Or.inr (Or.inr ⟨ch, hch, hxc.symm, x, hx, by rw [hxd]⟩)
  · rintro ((⟨rfl, (⟨d, hd, rfl⟩ | ⟨d, hd, rfl⟩)⟩) |
      (⟨rfl, d, hd, rfl⟩) | (⟨ch, hch, rfl, d, hd, rfl⟩))
    · exact ⟨d, by simp only [List.mem_append]; exact Or.inl (Or.inl (Or.inl
        (List.mem_map.mpr ⟨d, hd, rfl⟩))), rfl⟩
    · exact ⟨d, by simp only [List.mem_append]; exact Or.inl (Or.inl (Or.inr
        (List.mem_map.mpr ⟨d, hd, rfl⟩))), rfl⟩
    · exact ⟨d, by simp only [List.mem_append]; exact Or.inl (Or.inr
        (List.mem_map.mpr ⟨d, hd, rfl⟩)), rfl⟩
    · refine ⟨d, ?_, rfl⟩
      simp only [List.mem_append]
      refine Or.inr (List.mem_flatten.mpr ⟨_, List.mem_map.mpr ⟨ch, hch, rfl⟩, ?_⟩)
      exact List.mem_append_left _ (List.mem_map.mpr ⟨d, hd, rfl⟩)

/-- C2 (confirmed): for every chapter produced by one pipeline run, the
chapter-level image list is the first-occurrence dedup of the document-order
URL stream (so every URL appears at most once, in first-occurrence order),
and for every QAItem the per-item image-usage list records, for each URL,
exactly the contexts in which that URL occurs in the item (`"question"` for
`question_rich`/`question_extra` images, `"analysis"` for `analysis_lines`
images, `"choice:<label>"` for a choice's content images), with no context
lost and no context tag recorded twice for the same URL. -/
theorem image_dedup_and_usage_contexts :
    (∀ nodes : List Node,
        (buildChapter nodes).images = dedupFirst (docUrls initState nodes) ∧
        ((buildChapter nodes).images).Nodup) ∧
      (∀ (urlToFile : List (String × String)) (q : BQa),
        (∀ p ∈ itemOccurrences q, p.1.src ≠ "") →
        ((enrichUsage urlToFile q).map Usage.url).Nodup ∧
        (∀ e ∈ enrichUsage urlToFile q, e.contexts.Nodup) ∧
        (∀ u c, c ∈ ctxOf (enrichUsage urlToFile q) u ↔ occursWith q u c)) := by
  constructor
  · intro nodes
    refine ⟨buildChapter_images nodes, ?_⟩
    rw [buildChapter_images nodes]
    exact nodup_dedupFirst _
  · intro utf q hne
    refine ⟨foldRecord_map_url_nodup utf _ [] (by simp),
      foldRecord_contexts_nodup utf _ [] (by simp), ?_⟩
    intro u c
    unfold enrichUsage
    rw [foldRecord_ctx_mem utf (itemOccurrences q) [] hne u c,
      ← mem_itemOccurrences q u c]
    simp [ctxOf]

/-- Closed witness for `image_dedup_and_usage_contexts`, applying it at a
concrete item. -/
theorem image_dedup_and_usage_contexts_witness :
    (∀ p ∈ itemOccurrences sampleQa, p.1.src ≠ "") ∧
      ("analysis" ∈ ctxOf (enrichUsage [] sampleQa) "http://x/im.png" ↔
        occursWith sampleQa "http://x/im.png" "analysis") := by
  refine ⟨by decide, ?_⟩
  exact (image_dedup_and_usage_contexts.2 [] sampleQa (by decide)).2.2
    "http://x/im.png" "analysis"

/-! ### The `x<sup>2</sup>+y<sup>2</sup>=1` scenario (C4) -/

/-- C4 (corrected, counterexample): the normalizer maps
`"x<sup>2</sup>+y<sup>2</sup>=1"` to `"$x^{2} + y^{2} = 1$"` —
`_format_math_buffer` puts canonical single spaces around `+` as well as
`=`, so the claimed output `"$x^{2}+y^{2} = 1$"` (no spaces around `+`) is
wrong. -/
theorem normalizer_sup_scenario_counterexample :
    normalizeMarkupS "x<sup>2</sup>+y<sup>2</sup>=1" = "$x^{2} + y^{2} = 1$" ∧
      normalizeMarkupS "x<sup>2</sup>+y<sup>2</sup>=1" ≠ "$x^{2}+y^{2} = 1$" := by
  refine ⟨by decide, by decide⟩

/-- C4 (amended): the full text normalizer (Stage A–D,
`_convert_markup_to_latex` followed by `_cleanup_math_tokens`) maps the
input `"x<sup>2</sup>+y<sup>2</sup>=1"` to exactly
`"$x^{2} + y^{2} = 1$"` — a single merged math span with canonical spacing
around both `+` and `=`; the intermediate Stage A–C output is
`"$x^{2}$+ $y^{2}$=1"`. -/
theorem normalizer_sup_scenario :
    normalizeMarkupS "x<sup>2</sup>+y<sup>2</sup>=1" = "$x^{2} + y^{2} = 1$" ∧
      convertMarkupS "x<sup>2</sup>+y<sup>2</sup>=1" = "$x^{2}$+ $y^{2}$=1" := by
  refine ⟨by decide, by decide⟩

/-! ### Termination and fixed points of `_merge_adjacent` (C9) -/

theorem takeToBrace_len {s g rest : List Char}
    (h : takeToBrace s = some (g, rest)) :
    s.length = g.length + 1 + rest.length := by
  unfold takeToBrace at h
  simp only at h
  split at h
  · cases h
  · split at h
    · rename_i rest0 heq
      simp only [Option.some.injEq, Prod.mk.injEq] at h
      obtain ⟨rfl, rfl⟩ := h
      have h1 : (s.drop (s.takeWhile (fun c => c ≠ '}')).length).length =
          rest0.length + 1 := by rw [heq]; rfl
      have h2 : (s.takeWhile (fun c => c ≠ '}')).length ≤ s.length :=
        (s.takeWhile_prefix _).length_le
      rw [List.length_drop] at h1
      omega
    · cases h

theorem tryAdjMatch_len {m : Char} {s g1 g2 rest : List Char}
    (h : tryAdjMatch m s = some (g1, g2, rest)) :
    s.length = g1.length + g2.length + 6 + rest.length := by
  unfold tryAdjMatch at h
  rcases s with _ | ⟨c0, _ | ⟨c1, r⟩⟩
  · cases h
  · cases h
  · simp only at h
    split at h
    · rcases ht : takeToBrace r with _ | ⟨G1, R1⟩
      · rw [ht] at h; cases h
      · rw [ht] at h
        rcases R1 with _ | ⟨d0, _ | ⟨d1, r2⟩⟩
        · cases h
        · cases h
        · simp only at h
          split at h
          · rcases ht2 : takeToBrace r2 with _ | ⟨G2, R3⟩
            · rw [ht2] at h; cases h
            · rw [ht2] at h
              simp only [Option.some.injEq, Prod.mk.injEq] at h
              obtain ⟨rfl, rfl, rfl⟩ := h
              have l1 := takeToBrace_len ht
              have l2 := takeToBrace_len ht2
              simp only [List.length_cons] at l1 l2 ⊢
              omega
          · cases h
    · cases h

theorem mergePass_succ_none {m c : Char} {cs t : List Char} {fuel n : Nat}
    (hm : tryAdjMatch m (c :: cs) = none)
    (hp : mergePass m fuel cs = (t, n)) :
    mergePass m (fuel + 1) (c :: cs) = (c :: t, n) := by
  simp only [mergePass, hm, hp]

theorem mergePass_succ_some {m c : Char} {cs g1 g2 rest t : List Char}
    {fuel n : Nat}
    (hm : tryAdjMatch m (c :: cs) = some (g1, g2, rest))
    (hp : mergePass m fuel rest = (t, n)) :
    mergePass m (fuel + 1) (c :: cs) =
      (m :: '{' :: (g1 ++ g2) ++ '}' :: t, n + 1) := by
  simp only [mergePass, hm, hp]

theorem mergePass_len (m : Char) :
    ∀ (fuel : Nat) (s : List Char),
      (mergePass m fuel s).1.length + 3 * (mergePass m fuel s).2 = s.length := by
  intro fuel
  induction fuel with
  | zero => intro s; simp [mergePass]
  | succ fuel ih =>
    intro s
    rcases s with _ | ⟨c, cs⟩
    · simp [mergePass]
    · rcases hm : tryAdjMatch m (c :: cs) with _ | ⟨g1, g2, rest⟩
      · rcases hp : mergePass m fuel cs with ⟨t, n⟩
        rw [mergePass_succ_none hm hp]
        have := ih cs
        rw [hp] at this
        dsimp only at this
        simp only [List.length_cons]
        omega
      · rcases hp : mergePass m fuel rest with ⟨t, n⟩
        rw [mergePass_succ_some hm hp]
        have := ih rest
        rw [hp] at this
        dsimp only at this
        have hlen := tryAdjMatch_len hm
        simp only [List.length_cons, List.length_append] at hlen ⊢
        omega

theorem mergePass_count_zero (m : Char) :
    ∀ (fuel : Nat) (s : List Char),
      (mergePass m fuel s).2 = 0 → (mergePass m fuel s).1 = s := by
  intro fuel
  induction fuel with
  | zero => intro s _; cases s <;> rfl
  | succ fuel ih =>
    intro s h
    rcases s with _ | ⟨c, cs⟩
    · rfl
    · rcases hm : tryAdjMatch m (c :: cs) with _ | ⟨g1, g2, rest⟩
      · rcases hp : mergePass m fuel cs with ⟨t, n⟩
        rw [mergePass_succ_none hm hp] at h ⊢
        dsimp only at h ⊢
        have := ih cs
        rw [hp] at this
        dsimp only at this
        rw [this h]
      · rcases hp : mergePass m fuel rest with ⟨t, n⟩
        rw [mergePass_succ_some hm hp] at h
        dsimp only at h
        omega

theorem mergePass_zero_iff (m : Char) :
    ∀ (fuel : Nat) (s : List Char),
      (mergePass m fuel s).2 = 0 ↔ hasAdjMatch m fuel s = false := by
  intro fuel
  induction fuel with
  | zero => intro s; simp [mergePass, hasAdjMatch]
  | succ fuel ih =>
    intro s
    rcases s with _ | ⟨c, cs⟩
    · simp [mergePass, hasAdjMatch]
    · rcases hm : tryAdjMatch m (c :: cs) with _ | ⟨g1, g2, rest⟩
      · rcases hp : mergePass m fuel cs with ⟨t, n⟩
        rw [mergePass_succ_none hm hp]
        have h1 : hasAdjMatch m (fuel + 1) (c :: cs) = hasAdjMatch m fuel cs := by
          simp [hasAdjMatch, hm]
        rw [h1]
        have := ih cs
        rw [hp] at this
        exact this
      · rcases hp : mergePass m fuel rest with ⟨t, n⟩
        rw [mergePass_succ_some hm hp]
        have h1 : hasAdjMatch m (fuel + 1) (c :: cs) = true := by
          simp [hasAdjMatch, hm]
        rw [h1]
        simp

theorem mergeLoop_no_match (m : Char) :
    ∀ (fuel : Nat) (s : List Char), s.length < 3 * fuel →
      containsAdjacent m (mergeLoop m fuel s) = false := by
  intro fuel
  induction fuel with
  | zero => intro s h; omega
  | succ fuel ih =>
    intro s h
    show containsAdjacent m
      (match mergePass m (s.length + 1) s with
       | (t, n) => if n = 0 then t else mergeLoop m fuel t) = false
    rcases hp : mergePass m (s.length + 1) s with ⟨t, n⟩
    dsimp only
    by_cases hn : n = 0
    · rw [if_pos hn]
      have heq : t = s := by
        have := mergePass_count_zero m (s.length + 1) s (by rw [hp, hn])
        rw [hp] at this
        exact this
      subst heq
      have := (mergePass_zero_iff m (t.length + 1) t).mp (by rw [hp, hn])
      exact this
    · rw [if_neg hn]
      apply ih
      have hlen := mergePass_len m (s.length + 1) s
      rw [hp] at hlen
      dsimp only at hlen
      omega

/-- After `_merge_adjacent(M, s)` the result contains no `M{a}M{b}` match,
and it is no longer than the input (each merge removes three characters,
which is also why the rewriting loop terminates). -/
theorem mergeAdjacent_fixed (m : Char) (s : List Char) :
    containsAdjacent m (mergeAdjacent m s) = false := by
  unfold mergeAdjacent
  exact mergeLoop_no_match m (s.length + 1) s (by omega)

theorem mergeLoop_len (m : Char) :
    ∀ (fuel : Nat) (s : List Char), (mergeLoop m fuel s).length ≤ s.length := by
  intro fuel
  induction fuel with
  | zero => intro s; exact Nat.le_refl _
  | succ fuel ih =>
    intro s
    show (match mergePass m (s.length + 1) s with
       | (t, n) => if n = 0 then t else mergeLoop m fuel t).length ≤ s.length
    rcases hp : mergePass m (s.length + 1) s with ⟨t, n⟩
    dsimp only
    have hlen := mergePass_len m (s.length + 1) s
    rw [hp] at hlen
    dsimp only at hlen
    by_cases hn : n = 0
    · rw [if_pos hn]
      omega
    · rw [if_neg hn]
      exact Nat.le_trans (ih t) (by omega)

/-- C9 (corrected, counterexample): `_merge_adjacent` for `'_'` can create a
new `^`-adjacency that the already-finished `'^'` pass never revisits: on
`"^{a_{x}_{y}^{b}"` the `'^'` pass finds nothing, the `'_'` pass rewrites it
to `"^{a_{xy}^{b}"`, and that output *does* contain a match of the
`^`-merge pattern `^{a}^{b}` — so the combined Stage B output is not free of
adjacent same-direction script groups. -/
theorem merge_adjacent_counterexample :
    mergeAdjacent '_' (mergeAdjacent '^' "^\x7ba_\x7bx\x7d_\x7by\x7d^\x7bb\x7d".data) =
        "^\x7ba_\x7bxy\x7d^\x7bb\x7d".data ∧
      containsAdjacent '^'
        (mergeAdjacent '_' (mergeAdjacent '^' "^\x7ba_\x7bx\x7d_\x7by\x7d^\x7bb\x7d".data)) = true := by
  refine ⟨by decide, by decide⟩

/-- C9 (amended): `_merge_adjacent` terminates on every input (every counted
substitution shortens the string by three characters, so the output is never
longer than the input), and each application reaches a fixed point *for its
own marker*: after the `'^'` pass the string has no `^{a}^{b}` match, and
after the subsequent `'_'` pass it has no `_{a}_{b}` match — but the `'_'`
pass may reintroduce a `^{a}^{b}` match. -/
theorem merge_adjacent_termination_fixed_points :
    ∀ s : List Char,
      (mergeAdjacent '^' s).length ≤ s.length ∧
        (mergeAdjacent '_' (mergeAdjacent '^' s)).length ≤ s.length ∧
        containsAdjacent '^' (mergeAdjacent '^' s) = false ∧
        containsAdjacent '_' (mergeAdjacent '_' (mergeAdjacent '^' s)) = false := by
  intro s
  exact ⟨mergeLoop_len '^' (s.length + 1) s,
    Nat.le_trans (mergeLoop_len '_' _ _) (mergeLoop_len '^' (s.length + 1) s),
    mergeAdjacent_fixed '^' s, mergeAdjacent_fixed '_' _⟩

/-! ### Unmatched `$` truncation in `_cleanup_math_tokens` (C10) -/

theorem splitSegs_nil (f : Nat) : splitSegs f ([] : List Char) = [] := by
  cases f <;> rfl

theorem splitSegs_dollar (fuel : Nat) (rest : List Char) :
    splitSegs (fuel + 1) ('$' :: rest) =
      match rest.drop (rest.takeWhile (fun c => c ≠ '$')).length with
      | '$' :: rest' =>
        (true, rest.takeWhile (fun c => c ≠ '$')) :: splitSegs fuel rest'
      | _ => [] := rfl

theorem splitSegs_text (fuel : Nat) (c : Char) (cs : List Char) (hc : ¬(c = '$')) :
    splitSegs (fuel + 1) (c :: cs) =
      (false, (c :: cs).takeWhile (fun x => x ≠ '$')) ::
        splitSegs fuel ((c :: cs).drop ((c :: cs).takeWhile (fun x => x ≠ '$')).length) := by
  simp only [splitSegs]

theorem takeWhile_ne_dollar_eq_self (u : List Char) (hu : '$' ∉ u) :
    u.takeWhile (fun c => c ≠ '$') = u := by
  induction u with
  | nil => rfl
  | cons c cs ih =>
    simp only [List.mem_cons, not_or] at hu
    rw [List.takeWhile_cons, if_pos (decide_eq_true (Ne.symm hu.1)), ih hu.2]

theorem takeWhile_append_dollar (t u : List Char) :
    (t ++ '$' :: u).takeWhile (fun c => c ≠ '$') =
      t.takeWhile (fun c => c ≠ '$') := by
  induction t with
  | nil =>
    rw [List.nil_append, List.takeWhile_cons, if_neg (by simp)]
    rfl
  | cons c cs ih =>
    rw [List.cons_append, List.takeWhile_cons, List.takeWhile_cons]
    by_cases hc : c = '$'
    · subst hc
      rw [if_neg (by simp), if_neg (by simp)]
    · rw [if_pos (decide_eq_true hc), if_pos (decide_eq_true hc), ih]

theorem dropWhile_dollar_cons (l : List Char) (hl : '$' ∈ l) :
    ∃ r, l.dropWhile (fun c => c ≠ '$') = '$' :: r := by
  induction l with
  | nil => cases hl
  | cons c cs ih =>
    by_cases hc : c = '$'
    · subst hc
      exact ⟨cs, by rw [List.dropWhile_cons, if_neg (by simp)]⟩
    · have hmem : '$' ∈ cs := (List.mem_cons.mp hl).resolve_left (fun h => hc h.symm)
      obtain ⟨r, hr⟩ := ih hmem
      exact ⟨r, by rw [List.dropWhile_cons, if_pos (decide_eq_true hc), hr]⟩

theorem splitSegs_unmatched (fuel : Nat) (u : List Char) (hu : '$' ∉ u) :
    splitSegs (fuel + 1) ('$' :: u) = [] := by
  rw [splitSegs_dollar, takeWhile_ne_dollar_eq_self u hu, List.drop_length]

theorem splitSegs_append (f1 : Nat) :
    ∀ (t : List Char) (f2 : Nat) (u : List Char),
      t.length < f1 → (t ++ '$' :: u).length < f2 →
      t.count '$' % 2 = 0 → '$' ∉ u →
      splitSegs f2 (t ++ '$' :: u) = splitSegs f1 t := by
  induction f1 with
  | zero => intro t f2 u h1 _ _ _; omega
  | succ a ih =>
    intro t f2 u h1 h2 hcount hu
    cases f2 with
    | zero => simp at h2
    | succ b =>
      cases t with
      | nil =>
        rw [splitSegs_nil, List.nil_append]
        exact splitSegs_unmatched b u hu
      | cons c t' =>
        by_cases hc : c = '$'
        · subst hc
          have hct' : t'.count '$' % 2 = 1 := by
            simp [List.count_cons] at hcount
            omega
          have hmem' : '$' ∈ t' := by
            by_contra h
            have : t'.count '$' = 0 := List.count_eq_zero.mpr h
            omega
          obtain ⟨r, hr⟩ := dropWhile_dollar_cons t' hmem'
          set g := t'.takeWhile (fun x => x ≠ '$') with hg
          have hsplit : t' = g ++ '$' :: r := by
            rw [hg, ← hr]; exact (List.takeWhile_append_dropWhile _ _).symm
          have hdrop : t'.drop g.length = '$' :: r := by
            conv_lhs => rw [hsplit]
            exact List.drop_left _ _
          have hcg : g.count '$' = 0 := by
            refine List.count_eq_zero.mpr (fun hmem => ?_)
            have := List.mem_takeWhile_imp (hg ▸ hmem)
            simp at this
          have hlen := congrArg List.length hsplit
          simp only [List.length_append, List.length_cons] at hlen
          rw [splitSegs_dollar a t', ← hg, hdrop]
          rw [show ('$' :: t') ++ '$' :: u = '$' :: (t' ++ '$' :: u) from rfl]
          rw [splitSegs_dollar b (t' ++ '$' :: u), takeWhile_append_dollar, ← hg]
          have hdrop2 : (t' ++ '$' :: u).drop g.length = '$' :: (r ++ '$' :: u) := by
            conv_lhs => rw [hsplit, List.append_assoc]
            exact List.drop_left _ _
          rw [hdrop2]
          have hc2 := congrArg (List.count '$') hsplit
          simp [List.count_append, List.count_cons] at hc2
          have hcr : r.count '$' % 2 = 0 := by omega
          have h1' : r.length < a := by
            simp only [List.length_cons] at h1
            omega
          have h2' : (r ++ '$' :: u).length < b := by
            simp only [List.length_cons, List.length_append] at h2 ⊢
            omega
          show (true, g) :: splitSegs b (r ++ '$' :: u) = (true, g) :: splitSegs a r
          rw [ih r b u h1' h2' hcr hu]
        · set g := (c :: t').takeWhile (fun x => x ≠ '$') with hg
          set d := (c :: t').dropWhile (fun x => x ≠ '$') with hd
          have hgne : g = c :: t'.takeWhile (fun x => x ≠ '$') := by
            rw [hg, List.takeWhile_cons, if_pos (decide_eq_true hc)]
          have hsplit : (c :: t') = g ++ d := by
            rw [hg, hd]; exact (List.takeWhile_append_dropWhile _ _).symm
          have hdropt : (c :: t').drop g.length = d := by
            conv_lhs => rw [hsplit]
            exact List.drop_left _ _
          have hcg : g.count '$' = 0 := by
            refine List.count_eq_zero.mpr (fun hmem => ?_)
            have := List.mem_takeWhile_imp (hg ▸ hmem)
            simp at this
          have hc2 : (c :: t').count '$' = g.count '$' + d.count '$' := by
            conv_lhs => rw [hsplit]
            exact List.count_append _ _ _
          have hcd : d.count '$' % 2 = 0 := by omega
          rw [splitSegs_text a c t' hc, ← hg, hdropt]
          rw [show (c :: t') ++ '$' :: u = c :: (t' ++ '$' :: u) from rfl]
          rw [splitSegs_text b c (t' ++ '$' :: u) hc]
          have htw2 : (c :: (t' ++ '$' :: u)).takeWhile (fun x => x ≠ '$') = g := by
            rw [show c :: (t' ++ '$' :: u) = (c :: t') ++ '$' :: u from rfl,
              takeWhile_append_dollar, ← hg]
          rw [htw2]
          have hdrop2 : (c :: (t' ++ '$' :: u)).drop g.length = d ++ '$' :: u := by
            conv_lhs =>
              rw [show c :: (t' ++ '$' :: u) = (c :: t') ++ '$' :: u from rfl,
                hsplit, List.append_assoc]
            exact List.drop_left _ _
          rw [hdrop2]
          have hglen : 1 ≤ g.length := by rw [hgne]; simp
          have hlen := congrArg List.length hsplit
          simp only [List.length_append, List.length_cons] at hlen
          have h1' : d.length < a := by
            simp only [List.length_cons] at h1
            omega
          have h2' : (d ++ '$' :: u).length < b := by
            simp only [List.length_append, List.length_cons] at h2 ⊢
            omega
          rw [ih d b u h1' h2' hcd hu]

theorem cleanup_no_dollar_segs (t : List Char) (ht : '$' ∉ t) :
    (processSegs (splitSegs (t.length + 1) t) none [] []).flatten = t := by
  cases t with
  | nil => rfl
  | cons c cs =>
    have hc : ¬(c = '$') := fun h => ht (h ▸ List.mem_cons_self _ _)
    have htw : (c :: cs).takeWhile (fun x => x ≠ '$') = c :: cs :=
      takeWhile_ne_dollar_eq_self _ ht
    rw [splitSegs_text _ _ _ hc, htw, List.drop_length, splitSegs_nil]
    simp [processSegs]

theorem cleanupMath_append_unmatched (t u : List Char)
    (ht : t.count '$' % 2 = 0) (hu : '$' ∉ u) :
    cleanupMath (t ++ '$' :: u) = cleanupMath t := by
  have hmem : '$' ∈ t ++ '$' :: u :=
    List.mem_append.mpr (Or.inr (List.mem_cons_self _ _))
  have hsegs : splitSegs ((t ++ '$' :: u).length + 1) (t ++ '$' :: u)
      = splitSegs (t.length + 1) t :=
    splitSegs_append (t.length + 1) t _ u (by omega) (by simp) ht hu
  by_cases hdt : '$' ∈ t
  · unfold cleanupMath
    rw [if_neg (not_not.mpr hmem), if_neg (not_not.mpr hdt), hsegs]
  · unfold cleanupMath
    rw [if_neg (not_not.mpr hmem), if_pos hdt, hsegs]
    exact cleanup_no_dollar_segs t hdt

/-- C10 (confirmed): for every input to `_cleanup_math_tokens` containing an
unmatched `$` — written `t ++ '$' :: u` where the prefix `t` holds an even
number of `$` (so every `$` in `t` is paired when scanned left to right) and
the suffix `u` holds none — the output equals the cleanup of `t` alone:
nothing derived from the unmatched `$` or from any character after it
survives; in particular `"a$b"` yields `"a"`. -/
theorem cleanup_drops_unmatched_dollar_suffix :
    (∀ (t u : List Char), t.count '$' % 2 = 0 → '$' ∉ u →
        cleanupMath (t ++ '$' :: u) = cleanupMath t) ∧
      cleanupMathS "a$b" = "a" :=
  ⟨fun t u ht hu => cleanupMath_append_unmatched t u ht hu, by decide⟩

/-- Witness for C10 at `t = "a$x$y"`, `u = "b"`: the hypotheses hold and the
suffix `"$b"` is dropped. -/
theorem cleanup_drops_unmatched_dollar_suffix_witness :
    ("a$x$y".data.count '$' % 2 = 0) ∧ ('$' ∉ "b".data) ∧
      cleanupMath ("a$x$y".data ++ '$' :: "b".data) = cleanupMath "a$x$y".data :=
  ⟨by decide, by decide,
    cleanup_drops_unmatched_dollar_suffix.1 "a$x$y".data "b".data
      (by decide) (by decide)⟩

end Crawler
